import Mathlib

/-
Shallow embedding of the extractive text-summarization pipeline implemented in
`backend/document_summary.py` and `backend/text_summary.py`.

Modelling conventions:
* Python strings are modelled as `List Char` (with `String` wrappers at the API
  boundary); all inputs exercised are ASCII, so the ASCII character classifiers
  of Lean coincide with Python's classifiers on them.
* Python floats are modelled as `ℚ`.  Every concrete constant appearing in the
  embedded code (0.15, 0.25, 200, ...) is used only through comparisons and
  arithmetic whose outcomes at the concrete inputs of the theorems below are
  identical for binary floating point and for exact rationals.
* The sklearn TF-IDF feature computation is external to this repository; the
  per-sentence scores it produces enter the embedded selection code as an
  abstract function `score : ℕ → ℚ`, exactly as the Python code consumes the
  dictionary returned by its scoring helper.
-/

namespace Summarizer

/-- Python's `\s` whitespace class (ASCII part, the only part exercised here). -/
def pyWs (c : Char) : Bool :=
  c = ' ' || c = '\t' || c = '\n' || c = '\r' || c = '\x0b' || c = '\x0c'

/-- Python's `\w` word-character class (ASCII): letters, digits, underscore. -/
def isWordChar (c : Char) : Bool := c.isAlphanum || c = '_'

/-- The `(?<=[.!?])` lookbehind class of the sentence-split regex. -/
def isSentEnd (c : Char) : Bool := c = '.' || c = '!' || c = '?'

/-- Matching of the regex `{abbr}\.` at the head of `s`: letters of `abbr`
    match case-insensitively (`re.IGNORECASE`), a `.` occurring inside `abbr`
    (as in `i.e`, `ph.d`, `u.s`) is the regex any-character (not newline), and
    the final escaped `\.` of the pattern is a literal period. -/
def matchAbbrAt : List Char → List Char → Bool
  | [], s =>
    match s with
    | c :: _ => c = '.'
    | [] => false
  | _ :: _, [] => false
  | p :: ps, c :: cs =>
    (if p = '.' then c != '\n' else p.toLower = c.toLower) && matchAbbrAt ps cs

/-- The `\b` word boundary before a letter holds iff the previous character is
    absent or not a word character. -/
def atBoundary : Option Char → Bool
  | none => true
  | some c => !isWordChar c

/-- One pass of `re.sub(rf'\b{abbr}\.', abbr + '<PERIOD>', text, flags=re.IGNORECASE)`:
    leftmost non-overlapping matches are replaced by the (lower-case, as written
    in the Python list) abbreviation followed by the literal placeholder text,
    and scanning resumes after each match.  `prev` is the character preceding
    the current position in the original text, `skip` counts characters of an
    already-replaced match that remain to be consumed. -/
def maskAux (abbr : List Char) : List Char → Option Char → Nat → List Char
  | [], _, _ => []
  | c :: cs, _, skip + 1 => maskAux abbr cs (some c) skip
  | c :: cs, prev, 0 =>
    if atBoundary prev && matchAbbrAt abbr (c :: cs) then
      abbr ++ "<PERIOD>".toList ++ maskAux abbr cs (some c) abbr.length
    else
      c :: maskAux abbr cs (some c) 0

def maskAbbr (abbr : String) (s : List Char) : List Char :=
  maskAux abbr.toList s none 0

/-- Sequential masking passes, one `re.sub` per abbreviation, in list order. -/
def maskAll (abbrs : List String) (s : List Char) : List Char :=
  abbrs.foldl (fun t a => maskAbbr a t) s

/-- The `(?=[CLASS])` lookahead applied after the whitespace run starting `l`. -/
def lookAfterRun (la : Char → Bool) (l : List Char) : Bool :=
  match l.dropWhile pyWs with
  | r :: _ => la r
  | [] => false

/-- `re.split(r'(?<=[.!?])\s+(?=[CLASS])', text)`: a split point is a maximal
    whitespace run preceded by `.`/`!`/`?` and followed by a character of the
    lookahead class; the matched run is removed and the surrounding pieces are
    returned.  `cur` is the current piece reversed, `inRun` records that we are
    consuming the whitespace of a match. -/
def splitAux (la : Char → Bool) : List Char → Option Char → List Char → Bool → List (List Char)
  | [], _, cur, _ => [cur.reverse]
  | c :: cs, prev, cur, inRun =>
    if inRun && pyWs c then
      splitAux la cs (some c) cur true
    else if !inRun && (match prev with | some p => isSentEnd p | none => false)
        && pyWs c && lookAfterRun la (c :: cs) then
      cur.reverse :: splitAux la cs (some c) [] true
    else
      splitAux la cs (some c) (c :: cur) false

/-- `s.replace('<PERIOD>', '.')`: every occurrence of the placeholder becomes a
    period (leftmost, non-overlapping, scanning resumes after each match). -/
def restorePeriods : List Char → List Char
  | '<' :: 'P' :: 'E' :: 'R' :: 'I' :: 'O' :: 'D' :: '>' :: rest => '.' :: restorePeriods rest
  | c :: rest => c :: restorePeriods rest
  | [] => []

/-- Python `str.strip()`. -/
def pyStrip (s : List Char) : List Char :=
  ((s.dropWhile pyWs).reverse.dropWhile pyWs).reverse

/-- Python `str.split()` with no argument: whitespace-delimited words, empty
    pieces discarded. -/
def pyWords (s : List Char) : List (List Char) :=
  (s.splitOnP pyWs).filter (fun w => !w.isEmpty)

/-- Abbreviation list of `document_summary.split_sentences`. -/
def docAbbreviations : List String :=
  ["dr", "mr", "mrs", "ms", "prof", "sr", "jr", "etc", "vs", "i.e", "e.g",
   "ph.d", "inc", "ltd", "co", "dept", "fig", "no", "vol", "u.s", "u.k"]

/-- Abbreviation list of `text_summary.split_into_sentences`. -/
def textAbbreviations : List String :=
  ["dr", "mr", "mrs", "ms", "prof", "sr", "jr", "etc", "vs", "i.e", "e.g",
   "ph.d", "inc", "ltd", "co", "corp", "dept", "fig", "no", "vol", "approx",
   "jan", "feb", "mar", "apr", "may", "jun", "jul", "aug", "sep", "oct", "nov", "dec"]

/-- Lookahead class `[A-Z]` of `document_summary.split_sentences`. -/
def docLookahead (c : Char) : Bool := c.isUpper

/-- Lookahead class `[A-Z"\']` of `text_summary.split_into_sentences`. -/
def textLookahead (c : Char) : Bool := c.isUpper || c = '"' || c.toNat = 39

/-- `document_summary.split_sentences`: mask abbreviations, split on sentence
    boundaries, restore periods and strip, then keep only candidates longer
    than 15 characters, of at least 4 words, starting with an upper-case letter
    or a digit. -/
def split_sentences (text : String) : List String :=
  let masked := maskAll docAbbreviations text.toList
  let pieces := splitAux docLookahead masked none [] false
  let restored := pieces.map fun s => pyStrip (restorePeriods s)
  (restored.filter fun s =>
      decide (s.length > 15) && decide ((pyWords s).length ≥ 4) &&
      (match s with | c :: _ => c.isUpper || c.isDigit | [] => false)).map
    fun l => String.mk l

/-- `text_summary.split_into_sentences`: mask abbreviations, split on sentence
    boundaries, keep pieces whose stripped length exceeds 10, restore periods
    and strip.  (As in the source, the length filter looks at the piece before
    placeholder restoration.) -/
def split_into_sentences (text : String) : List String :=
  let masked := maskAll textAbbreviations text.toList
  let pieces := splitAux textLookahead masked none [] false
  (pieces.filter fun s => decide ((pyStrip s).length > 10)).map
    fun s => String.mk (pyStrip (restorePeriods s))

/-- `re.sub(r'\s+', ' ', text)`: every maximal whitespace run becomes a single
    space.  `inRun` records that the current position is inside a run whose
    replacement space has already been emitted. -/
def collapseWsAux : List Char → Bool → List Char
  | [], _ => []
  | c :: cs, inRun =>
    if pyWs c then
      if inRun then collapseWsAux cs true else ' ' :: collapseWsAux cs true
    else
      c :: collapseWsAux cs false

def collapseWs (s : List Char) : List Char := collapseWsAux s false

/-- Start of a match of `http[s]?://\S+`: the literal scheme prefix followed by
    at least one non-whitespace character. -/
def urlAt (l : List Char) : Bool :=
  (List.isPrefixOf "https://".toList l &&
    (match l.drop 8 with | c :: _ => !pyWs c | [] => false)) ||
  (List.isPrefixOf "http://".toList l &&
    (match l.drop 7 with | c :: _ => !pyWs c | [] => false))

/-- `re.sub(r'http[s]?://\S+', '', text)`.  A match always extends from the
    scheme prefix through the rest of the surrounding non-whitespace run
    (`\S+` is greedy with nothing after it), so removal skips non-whitespace
    characters from the match start until the next whitespace. -/
def removeURLsAux : List Char → Bool → List Char
  | [], _ => []
  | c :: cs, inRun =>
    if inRun && !pyWs c then
      removeURLsAux cs true
    else if !inRun && urlAt (c :: cs) then
      removeURLsAux cs true
    else
      c :: removeURLsAux cs false

def removeURLs (s : List Char) : List Char := removeURLsAux s false

/-- A maximal non-whitespace token matches `\S+@\S+` iff it contains an `@`
    that is neither its first nor its last character (the greedy `\S+` parts
    then cover the whole token, so `re.sub` deletes the token in full). -/
def emailToken (t : List Char) : Bool := ((t.drop 1).dropLast).contains '@'

inductive TokMode | out | keep | drop

/-- `re.sub(r'\S+@\S+', '', text)`: each whitespace-delimited token matching
    the pattern is deleted whole; whitespace and other tokens are kept. -/
def removeEmailsAux : List Char → TokMode → List Char
  | [], _ => []
  | c :: cs, m =>
    if pyWs c then c :: removeEmailsAux cs .out
    else
      match m with
      | .keep => c :: removeEmailsAux cs .keep
      | .drop => removeEmailsAux cs .drop
      | .out =>
        if emailToken ((c :: cs).takeWhile fun x => !pyWs x) then
          removeEmailsAux cs .drop
        else
          c :: removeEmailsAux cs .keep

def removeEmails (s : List Char) : List Char := removeEmailsAux s .out

/-- `text_summary.preprocess_text`: collapse whitespace first, then strip URLs
    and e-mail-like tokens, then trim.  (The collapse-before-removal order is
    the source's; it is what breaks idempotence.) -/
def preprocess_text (s : List Char) : List Char :=
  pyStrip (removeEmails (removeURLs (collapseWs s)))

/-- The `[""\"]` class of `document_summary.clean_text` line 74: curly or
    straight double quotes. -/
def isDq (c : Char) : Bool := c = '"' || c = '“' || c = '”'

/-- The `[''']` class of `clean_text` line 75: curly or straight apostrophes
    (39 is the straight apostrophe). -/
def isSq (c : Char) : Bool := c.toNat = 39 || c = '‘' || c = '’'

/-- `re.sub(r'[CLASS]+', r, text)` for a one-character replacement `r`: every
    maximal run of class characters becomes the single character `r` (the same
    scanning shape as `collapseWsAux`). -/
def collapseRunsAux (p : Char → Bool) (r : Char) : List Char → Bool → List Char
  | [], _ => []
  | c :: cs, inRun =>
    if p c then
      if inRun then collapseRunsAux p r cs true else r :: collapseRunsAux p r cs true
    else
      c :: collapseRunsAux p r cs false

def collapseRuns (p : Char → Bool) (r : Char) (s : List Char) : List Char :=
  collapseRunsAux p r s false

/-- `re.sub(r'\n{3,}', '\n\n', text)` (`clean_text` line 71): every maximal
    run of three or more newlines becomes exactly two. -/
def collapseNlAux : List Char → Bool → List Char
  | [], _ => []
  | c :: cs, inRun =>
    if inRun && c == '\n' then collapseNlAux cs true
    else if !inRun && c == '\n' &&
        decide (3 ≤ ((c :: cs).takeWhile (fun x => x == '\n')).length) then
      '\n' :: '\n' :: collapseNlAux cs true
    else
      c :: collapseNlAux cs false

def collapseNl (s : List Char) : List Char := collapseNlAux s false

/-- `document_summary.clean_text`: strip URLs and e-mail-like tokens first,
    then collapse whitespace, collapse newline runs (a no-op after the
    whitespace pass), normalize double- and single-quote runs, and trim. -/
def clean_text (s : List Char) : List Char :=
  pyStrip (collapseRuns isSq '\x27' (collapseRuns isDq '"'
    (collapseNl (collapseWs (removeEmails (removeURLs s))))))

/-- No suffix of `l` starts a `http[s]?://\S+` match. -/
def noUrl (l : List Char) : Prop := ∀ t, t <:+ l → urlAt t = false

/-- No whitespace-delimited token starting at any suffix of `l` matches
    `\S+@\S+`. -/
def noEmailSuf (l : List Char) : Prop :=
  ∀ t, t <:+ l → emailToken (t.takeWhile fun x => !pyWs x) = false

/-- The items of the Python score dict `{0: score 0, ..., n-1: score (n-1)}`
    in insertion order. -/
def scoreItems (score : ℕ → ℚ) (n : ℕ) : List (ℕ × ℚ) :=
  (List.range n).map fun i => (i, score i)

/-- Order used to embed Python's stable `sorted(pairs, key=lambda x: x[1],
    reverse=True)`: the list is enumerated with its position and sorted by
    (value descending, position ascending); on position-enumerated input this
    total order coincides with a stable descending sort. -/
def keyRel {α : Type} : (ℕ × (α × ℚ)) → (ℕ × (α × ℚ)) → Prop :=
  fun a b => b.2.2 < a.2.2 ∨ (a.2.2 = b.2.2 ∧ a.1 ≤ b.1)

instance {α : Type} : DecidableRel (@keyRel α) := fun a b => by
  unfold keyRel; infer_instance

instance {α : Type} : IsTotal (ℕ × (α × ℚ)) keyRel where
  total a b := by
    rcases lt_trichotomy a.2.2 b.2.2 with h | h | h
    · exact Or.inr (Or.inl h)
    · rcases Nat.le_total a.1 b.1 with h' | h'
      · exact Or.inl (Or.inr ⟨h, h'⟩)
      · exact Or.inr (Or.inr ⟨h.symm, h'⟩)
    · exact Or.inl (Or.inl h)

instance {α : Type} : IsTrans (ℕ × (α × ℚ)) keyRel where
  trans a b c hab hbc := by
    rcases hab with h | ⟨e, p⟩ <;> rcases hbc with h' | ⟨e', p'⟩
    · exact Or.inl (h'.trans h)
    · exact Or.inl (e'.symm ▸ h)
    · exact Or.inl (e ▸ h')
    · exact Or.inr ⟨e.trans e', p.trans p'⟩

/-- Python `sorted(pairs, key=lambda x: x[1], reverse=True)` on a list of
    (key, value) pairs: stable sort, value descending. -/
def pySortDesc {α : Type} (l : List (α × ℚ)) : List (α × ℚ) :=
  (List.insertionSort keyRel l.enum).map Prod.snd

/-- `sorted(scores.items(), key=lambda x: x[1], reverse=True)` for a score
    dict over indices `0..n-1`. -/
def sortedScoreItems (score : ℕ → ℚ) (n : ℕ) : List (ℕ × ℚ) :=
  pySortDesc (scoreItems score n)

inductive Level | brief | detailed | comprehensive

/-- Clamp bounds of `generate_professional_summary` (document_summary). -/
def docBandLo : Level → ℕ | .brief => 4 | .detailed => 6 | .comprehensive => 12
def docBandHi : Level → ℕ | .brief => 8 | .detailed => 15 | .comprehensive => 25
/-- Percentage of `int(total * ratio)` in `generate_professional_summary`. -/
def docPct : Level → ℕ | .brief => 15 | .detailed => 25 | .comprehensive => 35

/-- Target count of `generate_professional_summary`:
    `max(lo, min(hi, int(total * ratio)))`; `int` truncation of the float
    product is modelled by exact rational truncation `total * pct / 100`. -/
def docTarget (level : Level) (total : ℕ) : ℕ :=
  max (docBandLo level) (min (docBandHi level) (total * docPct level / 100))

/-- `level_configs` bands of `text_summary.text_summary`. -/
def textBandLo : Level → ℕ | .brief => 3 | .detailed => 5 | .comprehensive => 10
def textBandHi : Level → ℕ | .brief => 6 | .detailed => 12 | .comprehensive => 20
def textPct : Level → ℕ | .brief => 15 | .detailed => 25 | .comprehensive => 40

/-- `main_count = max(config['min'], min(config['max'], int(sentence_count * config['ratio'])))`. -/
def textTarget (level : Level) (total : ℕ) : ℕ :=
  max (textBandLo level) (min (textBandHi level) (total * textPct level / 100))

/-- `selected_idx = sorted([idx for idx, _ in sorted_scores[:target]])`
    (document_summary line 213, also text_summary's ensemble fallback
    lines 307-308). -/
def selectedIdx (score : ℕ → ℚ) (n target : ℕ) : List ℕ :=
  List.insertionSort (· ≤ ·) (((sortedScoreItems score n).take target).map Prod.fst)

/-- `selected = [sentences[i] for i in selected_idx]`. -/
def selectedSentences (sentences : List String) (score : ℕ → ℚ) (target : ℕ) : List String :=
  (selectedIdx score sentences.length target).map fun i => sentences.getD i ""

/-- Keys of a Python dict built by iterating a list: first occurrences, in
    first-occurrence order. -/
def firstDedupAux {α : Type} [DecidableEq α] : List α → List α → List α
  | _, [] => []
  | seen, a :: l =>
    if a ∈ seen then firstDedupAux seen l else a :: firstDedupAux (a :: seen) l

def firstDedup {α : Type} [DecidableEq α] (l : List α) : List α := firstDedupAux [] l

/-- `combined_scores[sent] = vote_score * 0.55 + custom_score * 0.45` with
    `vote_score = sentence_votes.get(sent, 0) / max(len(summarizers), 1)`
    (five summarizers) and
    `custom_score = custom_scores.get(sentences.index(sent), 0)` where the
    custom dict has keys `0..n-1`.  `votes` abstracts the sumy ensemble vote
    counts. -/
def combinedScore (votes : String → ℕ) (score : ℕ → ℚ) (sentences : List String)
    (s : String) : ℚ :=
  (votes s : ℚ) / 5 * (55 / 100) +
    (if sentences.indexOf s < sentences.length then score (sentences.indexOf s) else 0) *
      (45 / 100)

/-- The items of `combined_scores` in insertion order (one entry per distinct
    sentence string). -/
def combinedItems (votes : String → ℕ) (score : ℕ → ℚ) (sentences : List String) :
    List (String × ℚ) :=
  (firstDedup sentences).map fun s => (s, combinedScore votes score sentences s)

/-- `selected = [sent for sent, _ in sorted(combined_scores.items(), ...)[:target_count]]`. -/
def ensembleSelectedKeys (votes : String → ℕ) (score : ℕ → ℚ) (sentences : List String)
    (target : ℕ) : List String :=
  ((pySortDesc (combinedItems votes score sentences)).take target).map Prod.fst

/-- The order-restoring loop of `generate_ensemble_summary` (lines 295-300):
    walk the sentences in document order, append those in the selected set,
    stop once `target_count` are collected. -/
def ensembleOrdered (votes : String → ℕ) (score : ℕ → ℚ) (sentences : List String)
    (target : ℕ) : List String :=
  (sentences.filter fun s => decide (s ∈ ensembleSelectedKeys votes score sentences target)).take
    target

/-- Executive part of `generate_professional_summary` (lines 225-226):
    `exec_idx = sorted([idx for idx, _ in sorted_scores[:2]])`. -/
def docExecIdx (score : ℕ → ℚ) (n : ℕ) : List ℕ :=
  List.insertionSort (· ≤ ·) (((sortedScoreItems score n).take 2).map Prod.fst)

/-- `executive = ' '.join([sentences[i] for i in exec_idx])`. -/
def docExecutive (sentences : List String) (score : ℕ → ℚ) : String :=
  String.intercalate " " ((docExecIdx score sentences.length).map fun i => sentences.getD i "")

/-- Candidate pool of `text_summary.generate_executive_summary`: the first two
    sentences followed by the three top-scored sentences, deduplicated keeping
    first occurrences (the `seen` set loop). -/
def execCandidates (sentences : List String) (score : ℕ → ℚ) : List String :=
  firstDedup (sentences.take 2 ++
    ((sortedScoreItems score sentences.length).take 3).map fun p => sentences.getD p.1 "")

/-- `unique_scores[sent] = scores.get(sentences.index(sent) if sent in sentences else 0, 0)`. -/
def execUniqueScores (sentences : List String) (score : ℕ → ℚ) : List (String × ℚ) :=
  (execCandidates sentences score).map fun s =>
    (s,
      let idx := if s ∈ sentences then sentences.indexOf s else 0
      if idx < sentences.length then score idx else 0)

/-- `top = sorted(unique_scores.items(), key=lambda x: x[1], reverse=True)[:2]`. -/
def textExecPairs (sentences : List String) (score : ℕ → ℚ) : List (String × ℚ) :=
  (pySortDesc (execUniqueScores sentences score)).take 2

/-- `return ' '.join([sent for sent, score in top])` — note: no re-sorting by
    index before the join. -/
def textExecutive (sentences : List String) (score : ℕ → ℚ) : String :=
  String.intercalate " " ((textExecPairs sentences score).map Prod.fst)

/-- `text_summary.calculate_advanced_scores` at the granularity of the spec's
    failure-mode contract: `feat` is `some f` when the 12-factor feature
    computation (sklearn TF-IDF, cosine similarities, ...) succeeds producing
    scores `f`, and `none` when any internal error occurs inside the `try`
    block; the degenerate guard and the `except` recovery both return the
    uniform dict `{i: 1.0 for i in range(len(sentences))}`. -/
def calculate_advanced_scores (sentences : List String) (feat : Option (ℕ → ℚ)) : ℕ → ℚ :=
  match feat with
  | none => fun _ => 1
  | some f => if sentences.length < 3 then fun _ => 1 else f

/-- `document_summary.calculate_sentence_importance`: identical guard and
    recovery shape. -/
def calculate_sentence_importance (sentences : List String) (feat : Option (ℕ → ℚ)) :
    ℕ → ℚ :=
  match feat with
  | none => fun _ => 1
  | some f => if sentences.length < 3 then fun _ => 1 else f

/-- Position signal of `calculate_advanced_scores` (text_summary lines
    142-149): `0.6` below 10% of the document, `0.3` below 25%, `0.4` past
    85%, else `0.0`. -/
def positionScoreText (idx total : ℕ) : ℚ :=
  if (idx : ℚ) < total * (10 / 100) then 6 / 10
  else if (idx : ℚ) < total * (25 / 100) then 3 / 10
  else if (idx : ℚ) > total * (85 / 100) then 4 / 10
  else 0

/-- Position signal of `calculate_sentence_importance` (document_summary lines
    163-169): `rel_pos = idx / len(sentences)`; `1.0` below 10%, `0.85` past
    90%, else `0.4`. -/
def positionScoreDoc (idx total : ℕ) : ℚ :=
  if (idx : ℚ) / total < 1 / 10 then 1
  else if (idx : ℚ) / total > 9 / 10 then 85 / 100
  else 4 / 10

/-- Strict ranking order on score-dict items: higher score first, ties by
    lower original index first. -/
def strictKey : (ℕ × ℚ) → (ℕ × ℚ) → Prop :=
  fun p q => q.2 < p.2 ∨ (p.2 = q.2 ∧ p.1 < q.1)

/-- Separation invariant of whitespace-collapsed text: no two adjacent
    whitespace characters. -/
def wsSep : Char → Char → Prop := fun a b => pyWs a = false ∨ pyWs b = false

/-- Python `round(x)`: round to the nearest integer, ties to even. -/
def pyRound (q : ℚ) : ℤ :=
  if Int.fract q < 1 / 2 then ⌊q⌋
  else if 1 / 2 < Int.fract q then ⌊q⌋ + 1
  else if 2 ∣ ⌊q⌋ then ⌊q⌋ else ⌊q⌋ + 1

/-- `reading_time_minutes = max(1, round(word_count / 200))` (document_summary
    line 338, text_summary line 457). -/
def readingTime (wordCount : ℕ) : ℤ := max 1 (pyRound ((wordCount : ℚ) / 200))

/-- Python `round(x, 1)` modelled on rationals. -/
def pyRound1 (q : ℚ) : ℚ := (pyRound (q * 10) : ℚ) / 10

/-- `compression = round((1 - summary_words / word_count) * 100, 1)`. -/
def compressionPct (origWords sumWords : ℕ) : ℚ :=
  pyRound1 ((1 - (sumWords : ℚ) / origWords) * 100)

/-! ### Lemmas about the stable descending sort embedding -/

theorem zip_self {α : Type} : ∀ l : List α, l.zip l = l.map fun a => (a, a)
  | [] => rfl
  | a :: l => by simpa using zip_self l

theorem enum_range_map {α : Type} (f : ℕ → α) (n : ℕ) :
    ((List.range n).map f).enum = (List.range n).map fun i => (i, f i) := by
  rw [List.enum_map, List.enum_eq_zip_range, List.length_range, zip_self, List.map_map]
  rfl

theorem pySortDesc_perm {α : Type} (l : List (α × ℚ)) : (pySortDesc l).Perm l := by
  have h := (List.perm_insertionSort keyRel l.enum).map Prod.snd
  rwa [List.enum_map_snd] at h

theorem pySortDesc_length {α : Type} (l : List (α × ℚ)) :
    (pySortDesc l).length = l.length := (pySortDesc_perm l).length_eq

theorem pySortDesc_pairwise_le {α : Type} (l : List (α × ℚ)) :
    (pySortDesc l).Pairwise fun p q => q.2 ≤ p.2 := by
  have hs := List.sorted_insertionSort keyRel l.enum
  have h : (List.insertionSort keyRel l.enum).Pairwise
      fun x y : ℕ × (α × ℚ) => y.2.2 ≤ x.2.2 := by
    refine hs.imp ?_
    rintro a b (h | ⟨e, _⟩)
    · exact le_of_lt h
    · exact le_of_eq e.symm
  exact List.pairwise_map.2 h

theorem scoreItems_length (score : ℕ → ℚ) (n : ℕ) : (scoreItems score n).length = n := by
  simp [scoreItems]

theorem scoreItems_enum (score : ℕ → ℚ) (n : ℕ) :
    (scoreItems score n).enum = (List.range n).map fun i => (i, (i, score i)) :=
  enum_range_map _ n

theorem sortEnum_mem (score : ℕ → ℚ) (n : ℕ) :
    ∀ x ∈ List.insertionSort keyRel (scoreItems score n).enum,
      x.1 = x.2.1 ∧ x.2.2 = score x.1 ∧ x.1 < n := by
  intro x hx
  have hx' := (List.perm_insertionSort keyRel (scoreItems score n).enum).subset hx
  rw [scoreItems_enum] at hx'
  rcases List.mem_map.1 hx' with ⟨i, hi, rfl⟩
  exact ⟨rfl, rfl, List.mem_range.1 hi⟩

theorem sortEnum_nodup_fst (score : ℕ → ℚ) (n : ℕ) :
    ((List.insertionSort keyRel (scoreItems score n).enum).map Prod.fst).Nodup := by
  have h : ((List.insertionSort keyRel (scoreItems score n).enum).map Prod.fst).Perm
      ((scoreItems score n).enum.map Prod.fst) :=
    (List.perm_insertionSort _ _).map _
  rw [List.enum_map_fst] at h
  exact h.symm.nodup (List.nodup_range _)

theorem sortedScoreItems_pairwise (score : ℕ → ℚ) (n : ℕ) :
    (sortedScoreItems score n).Pairwise strictKey := by
  have hsorted := List.sorted_insertionSort keyRel (scoreItems score n).enum
  have hne : (List.insertionSort keyRel (scoreItems score n).enum).Pairwise
      fun x y => x.1 ≠ y.1 := List.pairwise_map.1 (sortEnum_nodup_fst score n)
  have hcomb := hsorted.and hne
  have hstrict : (List.insertionSort keyRel (scoreItems score n).enum).Pairwise
      fun x y => strictKey x.2 y.2 := by
    refine hcomb.imp_of_mem ?_
    intro a b ha hb hab
    obtain ⟨hk, hne'⟩ := hab
    obtain ⟨ea, -, -⟩ := sortEnum_mem score n a ha
    obtain ⟨eb, -, -⟩ := sortEnum_mem score n b hb
    rcases hk with h | ⟨e, le⟩
    · exact Or.inl h
    · refine Or.inr ⟨e, ?_⟩
      rw [← ea, ← eb]
      exact lt_of_le_of_ne le hne'
  exact List.pairwise_map.2 hstrict

theorem sortedScoreItems_perm (score : ℕ → ℚ) (n : ℕ) :
    (sortedScoreItems score n).Perm (scoreItems score n) :=
  pySortDesc_perm _

theorem sortedScoreItems_length (score : ℕ → ℚ) (n : ℕ) :
    (sortedScoreItems score n).length = n := by
  rw [(sortedScoreItems_perm score n).length_eq, scoreItems_length]

theorem mem_sortedScoreItems (score : ℕ → ℚ) (n : ℕ) {p : ℕ × ℚ}
    (hp : p ∈ sortedScoreItems score n) : p.1 < n ∧ p.2 = score p.1 := by
  have h := (sortedScoreItems_perm score n).subset hp
  rcases List.mem_map.1 h with ⟨i, hi, rfl⟩
  exact ⟨List.mem_range.1 hi, rfl⟩

theorem sortedScoreItems_mem (score : ℕ → ℚ) {n i : ℕ} (h : i < n) :
    (i, score i) ∈ sortedScoreItems score n := by
  refine (sortedScoreItems_perm score n).mem_iff.2 ?_
  exact List.mem_map.2 ⟨i, List.mem_range.2 h, rfl⟩

theorem sortedScoreItems_nodup_fst (score : ℕ → ℚ) (n : ℕ) :
    ((sortedScoreItems score n).map Prod.fst).Nodup := by
  have hcongr : (List.insertionSort keyRel (scoreItems score n).enum).map
        (Prod.fst ∘ Prod.snd) =
      (List.insertionSort keyRel (scoreItems score n).enum).map Prod.fst := by
    refine List.map_congr_left ?_
    intro x hx
    exact ((sortEnum_mem score n x hx).1).symm
  show ((List.insertionSort keyRel (scoreItems score n).enum).map Prod.snd).map
      Prod.fst |>.Nodup
  rw [List.map_map, hcongr]
  exact sortEnum_nodup_fst score n

/-! ### Selection lemmas -/

theorem selectedIdx_perm (score : ℕ → ℚ) (n target : ℕ) :
    (selectedIdx score n target).Perm
      (((sortedScoreItems score n).take target).map Prod.fst) :=
  List.perm_insertionSort _ _

theorem selectedIdx_length (score : ℕ → ℚ) (n target : ℕ) :
    (selectedIdx score n target).length = min target n := by
  rw [(selectedIdx_perm score n target).length_eq, List.length_map, List.length_take,
    sortedScoreItems_length]

theorem take_fst_nodup (score : ℕ → ℚ) (n target : ℕ) :
    (((sortedScoreItems score n).take target).map Prod.fst).Nodup := by
  rw [List.map_take]
  exact (List.take_sublist _ _).nodup (sortedScoreItems_nodup_fst score n)

theorem selectedIdx_sorted (score : ℕ → ℚ) (n target : ℕ) :
    List.Sorted (· < ·) (selectedIdx score n target) := by
  have hle : List.Sorted (· ≤ ·) (selectedIdx score n target) :=
    List.sorted_insertionSort _ _
  have hnodup : (selectedIdx score n target).Nodup :=
    ((selectedIdx_perm score n target).symm.nodup (take_fst_nodup score n target))
  refine (hle.and hnodup).imp ?_
  rintro a b ⟨h1, h2⟩
  exact lt_of_le_of_ne h1 h2

/-! ### Lemmas about dict-key deduplication -/

theorem mem_firstDedupAux {α : Type} [DecidableEq α] :
    ∀ (l seen : List α) (x : α), x ∈ firstDedupAux seen l ↔ x ∈ l ∧ x ∉ seen
  | [], seen, x => by simp [firstDedupAux]
  | a :: l, seen, x => by
    by_cases h : a ∈ seen
    · simp only [firstDedupAux, if_pos h, mem_firstDedupAux l seen x, List.mem_cons]
      constructor
      · rintro ⟨hx, hs⟩
        exact ⟨Or.inr hx, hs⟩
      · rintro ⟨hx | hx, hs⟩
        · exact absurd (hx ▸ h) hs
        · exact ⟨hx, hs⟩
    · simp only [firstDedupAux, if_neg h, List.mem_cons,
        mem_firstDedupAux l (a :: seen) x]
      constructor
      · rintro (rfl | ⟨hx, hs⟩)
        · exact ⟨Or.inl rfl, h⟩
        · exact ⟨Or.inr hx, fun hc => hs (Or.inr hc)⟩
      · rintro ⟨rfl | hx, hs⟩
        · exact Or.inl rfl
        · by_cases hxa : x = a
          · exact Or.inl hxa
          · exact Or.inr ⟨hx, by simp [List.mem_cons, hxa, hs]⟩

theorem firstDedup_mem {α : Type} [DecidableEq α] (l : List α) (x : α) :
    x ∈ firstDedup l ↔ x ∈ l := by
  simp [firstDedup, mem_firstDedupAux]

theorem firstDedupAux_nodup {α : Type} [DecidableEq α] :
    ∀ (l seen : List α), (firstDedupAux seen l).Nodup
  | [], seen => by simp [firstDedupAux]
  | a :: l, seen => by
    by_cases h : a ∈ seen
    · simpa [firstDedupAux, h] using firstDedupAux_nodup l seen
    · rw [firstDedupAux, if_neg h]
      refine List.nodup_cons.2 ⟨?_, firstDedupAux_nodup l (a :: seen)⟩
      intro hc
      exact ((mem_firstDedupAux l (a :: seen) a).1 hc).2 (List.mem_cons_self a seen)

theorem firstDedup_nodup {α : Type} [DecidableEq α] (l : List α) :
    (firstDedup l).Nodup := firstDedupAux_nodup l []

theorem firstDedupAux_length_le {α : Type} [DecidableEq α] :
    ∀ (l seen : List α), (firstDedupAux seen l).length ≤ l.length
  | [], _ => le_refl _
  | a :: l, seen => by
    by_cases h : a ∈ seen
    · rw [firstDedupAux, if_pos h]
      exact (firstDedupAux_length_le l seen).trans (Nat.le_succ _)
    · rw [firstDedupAux, if_neg h]
      simpa using firstDedupAux_length_le l (a :: seen)

theorem firstDedup_length_le {α : Type} [DecidableEq α] (l : List α) :
    (firstDedup l).length ≤ l.length := firstDedupAux_length_le l []

theorem combinedItems_map_fst (votes : String → ℕ) (score : ℕ → ℚ)
    (sentences : List String) :
    (combinedItems votes score sentences).map Prod.fst = firstDedup sentences := by
  rw [combinedItems, List.map_map]
  exact List.map_id _

/-! ### The count of the ensemble's order-restoring loop -/

theorem ensembleOrdered_length (votes : String → ℕ) (score : ℕ → ℚ)
    (sentences : List String) (target : ℕ) :
    (ensembleOrdered votes score sentences target).length =
      min target sentences.length := by
  classical
  have hKlen : (firstDedup sentences).length ≤ sentences.length :=
    firstDedup_length_le sentences
  have hitems_len : (combinedItems votes score sentences).length =
      (firstDedup sentences).length := by
    simp [combinedItems]
  have hsort_perm := pySortDesc_perm (combinedItems votes score sentences)
  have hfst_perm : ((pySortDesc (combinedItems votes score sentences)).map
      Prod.fst).Perm (firstDedup sentences) := by
    have h := hsort_perm.map Prod.fst
    rwa [combinedItems_map_fst] at h
  rw [ensembleOrdered, List.length_take, inf_eq_min]
  rcases le_total target (firstDedup sentences).length with h | h
  · -- at least `target` distinct sentence keys exist
    have hlen_keys : (ensembleSelectedKeys votes score sentences target).length = target := by
      rw [ensembleSelectedKeys, List.length_map, List.length_take,
        hsort_perm.length_eq, hitems_len, inf_eq_min]
      omega
    have hnodup_keys : (ensembleSelectedKeys votes score sentences target).Nodup := by
      rw [ensembleSelectedKeys, List.map_take]
      exact (List.take_sublist _ _).nodup (hfst_perm.symm.nodup (firstDedup_nodup sentences))
    have hsub : ∀ x ∈ ensembleSelectedKeys votes score sentences target,
        x ∈ sentences := by
      intro x hx
      rw [ensembleSelectedKeys, List.map_take] at hx
      have hx' := (List.take_sublist _ _).subset hx
      exact (firstDedup_mem sentences x).1 (hfst_perm.subset hx')
    have hsubperm : (ensembleSelectedKeys votes score sentences target).Subperm
        sentences := hnodup_keys.subperm hsub
    have hfilter : (ensembleSelectedKeys votes score sentences target).Subperm
        (sentences.filter fun s =>
          decide (s ∈ ensembleSelectedKeys votes score sentences target)) := by
      have h1 := hsubperm.filter
        (fun s => decide (s ∈ ensembleSelectedKeys votes score sentences target))
      rwa [List.filter_eq_self.2 (by intro a ha; simpa using ha)] at h1
    have hge := hfilter.length_le
    have hle2 := List.length_filter_le
      (fun s => decide (s ∈ ensembleSelectedKeys votes score sentences target)) sentences
    omega
  · -- every distinct sentence is selected, so the filter keeps everything
    have hall : ∀ s ∈ sentences,
        s ∈ ensembleSelectedKeys votes score sentences target := by
      intro s hs
      have hlen : (pySortDesc (combinedItems votes score sentences)).length ≤ target := by
        rw [hsort_perm.length_eq, hitems_len]; omega
      rw [ensembleSelectedKeys, List.take_of_length_le hlen]
      exact hfst_perm.mem_iff.2 ((firstDedup_mem sentences s).2 hs)
    rw [List.filter_eq_self.2 (by intro a ha; simpa using hall a ha)]

/-! ### Claim theorems -/

/-- C1: for every input, the number of sentences selected for the main summary
    equals `min targetCount totalSentences` — in `generate_professional_summary`
    (`selected_idx`), and in `generate_ensemble_summary`'s order-restoring
    selection — and the target count is clamped into the configured [min, max]
    band of the requested level, in both `document_summary` and `text_summary`. -/
theorem claim1_count_bound (score : ℕ → ℚ) (level : Level) (n : ℕ)
    (sentences : List String) (votes : String → ℕ) (target : ℕ) :
    (selectedIdx score n (docTarget level n)).length = min (docTarget level n) n ∧
    docBandLo level ≤ docTarget level n ∧ docTarget level n ≤ docBandHi level ∧
    textBandLo level ≤ textTarget level n ∧ textTarget level n ≤ textBandHi level ∧
    (ensembleOrdered votes score sentences target).length =
      min target sentences.length := by
  refine ⟨selectedIdx_length score n _, ?_, ?_, ?_, ?_,
    ensembleOrdered_length votes score sentences target⟩ <;>
    cases level <;> simp [docTarget, docBandLo, docBandHi, textTarget, textBandLo,
      textBandHi, docPct, textPct] <;> omega

/-- C2: the main-summary selection, mapped back to original sentence indices,
    is strictly increasing: `selected_idx` is sorted strictly ascending, and
    the ensemble's order-restoring loop returns a sublist of the sentence
    sequence (document reading order). -/
theorem claim2_order_preservation (score : ℕ → ℚ) (n target : ℕ)
    (sentences : List String) (votes : String → ℕ) :
    List.Sorted (· < ·) (selectedIdx score n target) ∧
    (ensembleOrdered votes score sentences target).Sublist sentences := by
  refine ⟨selectedIdx_sorted score n target, ?_⟩
  exact (List.take_sublist _ _).trans (List.filter_sublist _)

/-- C3: selection ranks by score descending with ties broken by ascending
    original index: if two sentences have equal scores, whenever the
    higher-indexed one is among the top `target` of `sorted_scores`, so is the
    lower-indexed one. -/
theorem claim3_tie_break (score : ℕ → ℚ) (n i j target : ℕ) (hij : i < j)
    (hjn : j < n) (heq : score i = score j)
    (hj : j ∈ (((sortedScoreItems score n).take target).map Prod.fst)) :
    i ∈ (((sortedScoreItems score n).take target).map Prod.fst) := by
  classical
  obtain ⟨p, hp, hpj⟩ := List.mem_map.1 hj
  obtain ⟨hpn, hpscore⟩ := mem_sortedScoreItems score n ((List.take_sublist _ _).subset hp)
  have hpeq : p = (j, score j) := by
    rcases p with ⟨p1, p2⟩
    simp only at hpj hpscore
    subst hpj; rw [hpscore]
  subst hpeq
  have hi_mem : (i, score i) ∈ sortedScoreItems score n :=
    sortedScoreItems_mem score (hij.trans hjn)
  by_contra hnot
  have hi_not_take : (i, score i) ∉ (sortedScoreItems score n).take target := by
    intro hc
    exact hnot (List.mem_map.2 ⟨(i, score i), hc, rfl⟩)
  have hsplit := List.take_append_drop target (sortedScoreItems score n)
  have hi_drop : (i, score i) ∈ (sortedScoreItems score n).drop target := by
    have := hi_mem
    rw [← hsplit] at this
    rcases List.mem_append.1 this with h | h
    · exact absurd h hi_not_take
    · exact h
  have hpair := sortedScoreItems_pairwise score n
  rw [← hsplit] at hpair
  have hcross := (List.pairwise_append.1 hpair).2.2 _ hp _ hi_drop
  rcases hcross with h | ⟨e, hlt⟩
  · rw [heq] at h
    exact absurd h (lt_irrefl _)
  · simp only at hlt
    omega

/-- Witness for C3 at a concrete tie: indices 0 and 1 share the top score of a
    three-sentence document; index 1 is selected into the top two, and the
    theorem forces index 0 in as well. -/
theorem claim3_tie_break_witness :
    (0:ℕ) < 1 ∧ (1:ℕ) < 3 ∧
      (fun k : ℕ => if k ≤ 1 then (1 : ℚ) else 0) 0 =
        (fun k : ℕ => if k ≤ 1 then (1 : ℚ) else 0) 1 ∧
      1 ∈ (((sortedScoreItems (fun k : ℕ => if k ≤ 1 then (1 : ℚ) else 0) 3).take 2).map
        Prod.fst) ∧
      0 ∈ (((sortedScoreItems (fun k : ℕ => if k ≤ 1 then (1 : ℚ) else 0) 3).take 2).map
        Prod.fst) :=
  ⟨by decide, by decide, by decide, by decide,
    claim3_tie_break _ 3 0 1 2 (by decide) (by decide) (by decide) (by decide)⟩

/-! ### Rounding lemmas (C4) -/

theorem pyRound_eq_round (q : ℚ) (h : Int.fract q ≠ 1 / 2) : pyRound q = round q := by
  have h0 := Int.fract_nonneg q
  have h1 := Int.fract_lt_one q
  have hq : (⌊q⌋ : ℚ) + Int.fract q = q := Int.floor_add_fract q
  rw [round_eq]
  unfold pyRound
  rcases lt_or_gt_of_ne h with hlt | hgt
  · rw [if_pos hlt]
    symm
    rw [Int.floor_eq_iff]
    push_cast
    constructor <;> linarith
  · rw [if_neg (not_lt.2 (le_of_lt hgt)), if_pos hgt]
    symm
    rw [Int.floor_eq_iff]
    push_cast
    constructor <;> linarith

theorem fract_div_200 (w : ℕ) :
    Int.fract ((w : ℚ) / 200) = ((w % 200 : ℕ) : ℚ) / 200 := by
  have hsplit : (w : ℚ) / 200 = ((w / 200 : ℕ) : ℤ) + ((w % 200 : ℕ) : ℚ) / 200 := by
    have hcast : (200 : ℚ) * ((w / 200 : ℕ) : ℚ) + ((w % 200 : ℕ) : ℚ) = (w : ℚ) := by
      exact_mod_cast congrArg (Nat.cast : ℕ → ℚ) (Nat.div_add_mod w 200)
    rw [Int.cast_natCast]
    linarith
  have hlt : ((w % 200 : ℕ) : ℚ) / 200 < 1 := by
    rw [div_lt_one (by norm_num)]
    exact_mod_cast Nat.mod_lt w (show 0 < 200 by norm_num)
  have hnn : (0 : ℚ) ≤ ((w % 200 : ℕ) : ℚ) / 200 := by positivity
  rw [hsplit, Int.fract_int_add, Int.fract_eq_self.2 ⟨hnn, hlt⟩]

/-- C4 counterexample: with 250 words the code reports
    `max(1, round(250/200)) = 1` minute, while rounding up as the claim states
    would give 2. -/
theorem claim4_counterexample :
    readingTime 250 = 1 ∧ max 1 ⌈(250 : ℚ) / 200⌉ = 2 := by
  constructor
  · norm_num [readingTime, pyRound, Int.fract]
  · norm_num [Int.ceil_eq_iff]

/-- C4 amended: the reading-time estimate is the word count divided by 200
    rounded to the *nearest* minute (ties to even), with a minimum of 1 — off
    tie points it agrees with ordinary rounding to nearest — and the
    compression ratio is `round((1 - summaryWords/originalWords) * 100, 1)` as
    claimed. -/
theorem claim4_amended (w s : ℕ) (hw : w % 200 ≠ 100) :
    readingTime w = max 1 (round ((w : ℚ) / 200)) ∧
    1 ≤ readingTime w ∧
    (0 < w → compressionPct w s = pyRound1 ((1 - (s : ℚ) / w) * 100)) := by
  refine ⟨?_, le_max_left _ _, fun _ => rfl⟩
  simp only [readingTime]
  rw [pyRound_eq_round]
  rw [fract_div_200]
  intro hc
  apply hw
  have h200 : (200 : ℚ) ≠ 0 := by norm_num
  have : ((w % 200 : ℕ) : ℚ) = 100 := by
    field_simp at hc
    linarith
  exact_mod_cast this

theorem claim4_amended_witness :
    (250 : ℕ) % 200 ≠ 100 ∧
      readingTime 250 = max 1 (round ((250 : ℚ) / 200)) ∧
      1 ≤ readingTime 250 ∧
      compressionPct 250 100 = pyRound1 ((1 - (100 : ℚ) / 250) * 100) :=
  ⟨by decide, (claim4_amended 250 100 (by decide)).1,
    (claim4_amended 250 100 (by decide)).2.1,
    (claim4_amended 250 100 (by decide)).2.2 (by decide)⟩

/-! ### Position-tier claims (C5) -/

/-- C5 counterexample: in `document_summary.calculate_sentence_importance` the
    position signal of a sentence in the 10–25% range (index 3 of 20) and of a
    sentence in the last 10–15% (index 17 of 20) both equal the 0.4 given to
    the middle of the document (index 10 of 20): those ranges receive no medium
    tier above the lowest, contradicting the claimed policy. -/
theorem claim5_counterexample :
    positionScoreDoc 3 20 = positionScoreDoc 10 20 ∧
    positionScoreDoc 17 20 = positionScoreDoc 10 20 ∧
    ¬ positionScoreDoc 3 20 > positionScoreDoc 10 20 := by
  norm_num [positionScoreDoc]

/-- C5 amended: the claimed tier policy holds for the text summarizer's
    position signal (first 10% → 0.6, 10–25% → 0.3, last 15% → 0.4, rest → 0);
    the document summarizer's position signal instead has three tiers
    (first 10% → 1.0, last 10% → 0.85, everything else → 0.4). -/
theorem claim5_amended (idx total : ℕ) (h : 0 < total) :
    (10 * idx < total →
      positionScoreText idx total = 6 / 10 ∧ positionScoreDoc idx total = 1) ∧
    (total ≤ 10 * idx → 4 * idx < total → positionScoreText idx total = 3 / 10) ∧
    (total ≤ 4 * idx → 17 * total < 20 * idx → positionScoreText idx total = 4 / 10) ∧
    (total ≤ 4 * idx → 20 * idx ≤ 17 * total → positionScoreText idx total = 0) ∧
    (total ≤ 10 * idx → 10 * idx ≤ 9 * total → positionScoreDoc idx total = 4 / 10) ∧
    (9 * total < 10 * idx → positionScoreDoc idx total = 85 / 100) := by
  have htotal : (0 : ℚ) < total := by exact_mod_cast h
  refine ⟨?_, ?_, ?_, ?_, ?_, ?_⟩
  · intro h1
    have h1' : (10 : ℚ) * idx < total := by exact_mod_cast h1
    refine ⟨?_, ?_⟩
    · simp only [positionScoreText]
      rw [if_pos (by linarith)]
    · simp only [positionScoreDoc]
      rw [if_pos (by rw [div_lt_iff htotal]; linarith)]
  · intro h1 h2
    have h1' : (total : ℚ) ≤ 10 * idx := by exact_mod_cast h1
    have h2' : (4 : ℚ) * idx < total := by exact_mod_cast h2
    simp only [positionScoreText]
    rw [if_neg (by push_cast at h1' ⊢; linarith), if_pos (by push_cast at h2' ⊢; linarith)]
  · intro h1 h2
    have h1' : (total : ℚ) ≤ 4 * idx := by exact_mod_cast h1
    have h2' : (17 : ℚ) * total < 20 * idx := by exact_mod_cast h2
    simp only [positionScoreText]
    rw [if_neg (by push_cast at h1' ⊢; linarith), if_neg (by push_cast at h1' ⊢; linarith),
      if_pos (by push_cast at h2' ⊢; linarith)]
  · intro h1 h2
    have h1' : (total : ℚ) ≤ 4 * idx := by exact_mod_cast h1
    have h2' : (20 : ℚ) * idx ≤ 17 * total := by exact_mod_cast h2
    simp only [positionScoreText]
    rw [if_neg (by push_cast at h1' ⊢; linarith), if_neg (by push_cast at h1' ⊢; linarith),
      if_neg (by push_cast at h2' ⊢; linarith)]
  · intro h1 h2
    have h1' : (total : ℚ) ≤ 10 * idx := by exact_mod_cast h1
    have h2' : (10 : ℚ) * idx ≤ 9 * total := by exact_mod_cast h2
    simp only [positionScoreDoc]
    rw [if_neg (not_lt.2 (by rw [le_div_iff htotal]; push_cast at h1' ⊢; linarith)),
      if_neg (not_lt.2 (by rw [div_le_iff htotal]; push_cast at h2' ⊢; linarith))]
  · intro h1
    have h1' : (9 : ℚ) * total < 10 * idx := by exact_mod_cast h1
    simp only [positionScoreDoc]
    rw [if_neg (not_lt.2 (by rw [le_div_iff htotal]; push_cast at h1' ⊢; linarith)),
      if_pos (by rw [gt_iff_lt, lt_div_iff htotal]; push_cast at h1' ⊢; linarith)]

/-- Witness for C5 at index 0 of a 20-sentence document: first 10% gets the
    highest tier in both scorers. -/
theorem claim5_amended_witness :
    0 < 20 ∧ 10 * 0 < 20 ∧ positionScoreText 0 20 = 6 / 10 ∧
      positionScoreDoc 0 20 = 1 :=
  ⟨by decide, by decide, ((claim5_amended 0 20 (by decide)).1 (by decide)).1,
    ((claim5_amended 0 20 (by decide)).1 (by decide)).2⟩

/-! ### Executive summary (C6) -/

/-- C6 counterexample: in `text_summary.generate_executive_summary` the two
    selected sentences are joined in descending-score order, not re-ordered by
    ascending original index: with the top score on sentence 5 and the second
    highest on sentence 1, the output starts with sentence 5. -/
theorem claim6_counterexample :
    textExecutive
        ["Alpha alpha.", "Bravo bravo.", "Charlie charlie.", "Delta delta.",
          "Echo echo.", "Foxtrot foxtrot."]
        (fun i => if i = 5 then 10 else if i = 1 then 9 else 0) =
      "Foxtrot foxtrot. Bravo bravo." ∧
    "Foxtrot foxtrot. Bravo bravo." ≠ "Bravo bravo. Foxtrot foxtrot." := by
  constructor <;> decide

/-- C6 amended: `document_summary` builds its executive summary from the top
    two scores re-ordered by ascending index (the index list is strictly
    increasing, of size `min 2 n`) and joined with a space; `text_summary`
    instead emits its two chosen sentences in non-increasing score order
    without restoring document order. -/
theorem claim6_amended (sentences : List String) (score : ℕ → ℚ) :
    List.Sorted (· < ·) (docExecIdx score sentences.length) ∧
    (docExecIdx score sentences.length).length = min 2 sentences.length ∧
    (textExecPairs sentences score).Pairwise (fun p q => q.2 ≤ p.2) ∧
    docExecutive sentences score =
      String.intercalate " "
        ((docExecIdx score sentences.length).map fun i => sentences.getD i "") := by
  refine ⟨selectedIdx_sorted score _ 2, selectedIdx_length score _ 2, ?_, rfl⟩
  exact List.Pairwise.sublist (List.take_sublist _ _) (pySortDesc_pairwise_le _)

/-! ### Scorer failure recovery (C7) -/

/-- C7: neither sentence scorer surfaces an internal failure: with fewer than
    three sentences, or whenever the feature computation errors out, every
    sentence index receives the uniform score 1.0. -/
theorem claim7_uniform_fallback (sentences : List String) (feat : Option (ℕ → ℚ))
    (i : ℕ) (h : sentences.length < 3 ∨ feat = none) :
    calculate_advanced_scores sentences feat i = 1 ∧
    calculate_sentence_importance sentences feat i = 1 := by
  rcases feat with _ | f
  · exact ⟨rfl, rfl⟩
  · rcases h with h | h
    · simp [calculate_advanced_scores, calculate_sentence_importance, h]
    · simp at h

theorem claim7_uniform_fallback_witness :
    (["one", "two"] : List String).length < 3 ∧
      calculate_advanced_scores ["one", "two"] (some fun k => (k : ℚ) + 5) 0 = 1 ∧
      calculate_sentence_importance ["one", "two"] (some fun k => (k : ℚ) + 5) 0 = 1 :=
  ⟨by decide,
    (claim7_uniform_fallback ["one", "two"] _ 0 (Or.inl (by decide))).1,
    (claim7_uniform_fallback ["one", "two"] _ 0 (Or.inl (by decide))).2⟩

/-! ### Abbreviation scenario (C8) -/

/-- C8: on the spec's scenario input, `document_summary.split_sentences`
    returns *no* sentence (instead of the required one): the masking pass
    rewrites `Dr.` into lower-case `dr<PERIOD>`, and the validity filter then
    rejects the only candidate because it no longer starts with an upper-case
    letter or digit.  `text_summary.split_into_sentences` does return exactly
    one sentence (with the same case mangling inside). -/
theorem claim8_abbreviation_scenario :
    split_sentences "Dr. Smith met Prof. Lee on Jan. 5." = [] ∧
    split_into_sentences "Dr. Smith met Prof. Lee on Jan. 5." =
      ["dr. Smith met prof. Lee on jan. 5."] := by
  constructor <;> decide

/-! ### Placeholder restoration (C10) -/

theorem prefix_restorePeriods :
    ∀ l w : List Char, '.' ∉ w → '<' ∉ w → w <+: restorePeriods l → w <+: l := by
  intro l
  induction l using restorePeriods.induct with
  | case1 rest ih =>
    intro w hdot hlt hw
    simp only [restorePeriods] at hw
    rcases w with _ | ⟨b, w'⟩
    · exact List.nil_prefix
    · rw [List.cons_prefix_cons] at hw
      exact absurd (hw.1 ▸ List.mem_cons_self b w') hdot
  | case2 c rest hne ih =>
    intro w hdot hlt hw
    rw [restorePeriods.eq_2 c rest hne] at hw
    rcases w with _ | ⟨b, w'⟩
    · exact List.nil_prefix
    · rw [List.cons_prefix_cons] at hw
      have hw' := ih w' (fun hc => hdot (List.mem_cons_of_mem _ hc))
        (fun hc => hlt (List.mem_cons_of_mem _ hc)) hw.2
      rw [List.cons_prefix_cons]
      exact ⟨hw.1, hw'⟩
  | case3 =>
    intro w hdot hlt hw
    exact hw

theorem no_placeholder_restorePeriods :
    ∀ l : List Char, ¬ "<PERIOD>".toList <:+: restorePeriods l := by
  intro l
  induction l using restorePeriods.induct with
  | case1 rest ih =>
    intro hcon
    simp only [restorePeriods] at hcon
    rcases List.infix_cons_iff.1 hcon with hpre | hinf
    · have hhead : "<PERIOD>".toList = '<' :: "PERIOD>".toList := rfl
      rw [hhead, List.cons_prefix_cons] at hpre
      exact absurd hpre.1 (by decide)
    · exact ih hinf
  | case2 c rest hne ih =>
    intro hcon
    rw [restorePeriods.eq_2 c rest hne] at hcon
    rcases List.infix_cons_iff.1 hcon with hpre | hinf
    · have head : "<PERIOD>".toList = '<' :: "PERIOD>".toList := rfl
      rw [head, List.cons_prefix_cons] at hpre
      have h2 := prefix_restorePeriods rest "PERIOD>".toList (by decide) (by decide) hpre.2
      rcases h2 with ⟨t, ht⟩
      exact hne t hpre.1.symm (by rw [← ht]; rfl)
    · exact ih hinf
  | case3 =>
    intro hcon
    simp only [restorePeriods] at hcon
    rw [List.infix_nil] at hcon
    exact absurd hcon (by decide)

theorem pyStrip_within (u : List Char) : pyStrip u <:+: u := by
  unfold pyStrip
  have h1 : u.dropWhile pyWs <:+ u := List.dropWhile_suffix _
  have h2 : ((u.dropWhile pyWs).reverse.dropWhile pyWs).reverse <+: u.dropWhile pyWs := by
    have h := List.dropWhile_suffix (l := (u.dropWhile pyWs).reverse) pyWs
    have h' := List.reverse_prefix.2 h
    rwa [List.reverse_reverse] at h'
  exact h2.isInfix.trans h1.isInfix

/-- C10: the segmenters do not preserve the literal placeholder text: no
    returned sentence of either segmenter ever contains the substring
    `<PERIOD>` (the placeholder is unconditionally replaced by `.` after
    splitting), and on an input carrying the literal marker the returned
    sentence shows the substituted period in its place. -/
theorem claim10_placeholder :
    (∀ text s : String,
      s ∈ split_into_sentences text ∨ s ∈ split_sentences text →
        ¬ "<PERIOD>".toList <:+: s.toList) ∧
    split_into_sentences "A small <PERIOD> marker appears here." =
      ["A small . marker appears here."] := by
  constructor
  · rintro text s (hs | hs) hcon
    · rcases List.mem_map.1 hs with ⟨piece, -, rfl⟩
      exact no_placeholder_restorePeriods piece (hcon.trans (pyStrip_within _))
    · rcases List.mem_map.1 hs with ⟨l, hl, rfl⟩
      rcases List.mem_filter.1 hl with ⟨hl', -⟩
      rcases List.mem_map.1 hl' with ⟨piece, -, rfl⟩
      exact no_placeholder_restorePeriods piece (hcon.trans (pyStrip_within _))
  · decide

theorem claim10_placeholder_witness :
    ("A small . marker appears here." ∈
        split_into_sentences "A small <PERIOD> marker appears here." ∨
      "A small . marker appears here." ∈
        split_sentences "A small <PERIOD> marker appears here.") ∧
    ¬ "<PERIOD>".toList <:+: "A small . marker appears here.".toList :=
  ⟨Or.inl (by decide),
    claim10_placeholder.1 "A small <PERIOD> marker appears here."
      "A small . marker appears here." (Or.inl (by decide))⟩

/-! ### Normalizer lemmas (C9) -/

theorem urlAt_colon {l : List Char} (h : urlAt l = true) : ':' ∈ l := by
  unfold urlAt at h
  simp only [Bool.or_eq_true, Bool.and_eq_true] at h
  rcases h with ⟨hpre, -⟩ | ⟨hpre, -⟩ <;>
    exact List.IsPrefix.subset (List.isPrefixOf_iff_prefix.1 hpre) (by decide)

theorem removeURLsAux_id : ∀ s : List Char, ':' ∉ s → removeURLsAux s false = s
  | [], _ => rfl
  | c :: cs, h => by
    have hurl : urlAt (c :: cs) = false := by
      by_contra hcon
      exact h (urlAt_colon (by simpa using hcon))
    simp only [removeURLsAux, Bool.false_and, Bool.not_false, Bool.true_and, hurl,
      if_false, ite_false]
    exact congrArg (c :: ·) (removeURLsAux_id cs fun hc => h (List.mem_cons_of_mem _ hc))

theorem emailToken_at {t : List Char} (h : emailToken t = true) : '@' ∈ t := by
  unfold emailToken at h
  exact (List.drop_sublist 1 t).subset
    ((List.dropLast_sublist _).subset (List.elem_iff.1 h))

theorem removeEmailsAux_id : ∀ s : List Char, '@' ∉ s →
    removeEmailsAux s .out = s ∧ removeEmailsAux s .keep = s
  | [], _ => ⟨rfl, rfl⟩
  | c :: cs, h => by
    have ih := removeEmailsAux_id cs fun hc => h (List.mem_cons_of_mem _ hc)
    by_cases hw : pyWs c = true
    · constructor <;>
      · simp only [removeEmailsAux, hw, if_true, ite_true]
        exact congrArg (c :: ·) ih.1
    · have htok : emailToken ((c :: cs).takeWhile fun x => !pyWs x) = false := by
        by_contra hcon
        have hmem := emailToken_at (by simpa using hcon)
        exact h ((List.takeWhile_sublist _).subset hmem)
      constructor
      · simp only [removeEmailsAux, hw, if_false, ite_false, htok]
        exact congrArg (c :: ·) ih.2
      · simp only [removeEmailsAux, hw, if_false, ite_false]
        exact congrArg (c :: ·) ih.2

theorem mem_collapseWsAux {c : Char} :
    ∀ (s : List Char) (b : Bool), c ∈ collapseWsAux s b → c ∈ s ∨ c = ' '
  | [], b => by simp [collapseWsAux]
  | a :: s, b => by
    intro hc
    by_cases hw : pyWs a = true
    · cases b with
      | false =>
        rw [show collapseWsAux (a :: s) false = ' ' :: collapseWsAux s true by
          simp [collapseWsAux, hw]] at hc
        rcases List.mem_cons.1 hc with rfl | hc
        · exact Or.inr rfl
        · rcases mem_collapseWsAux s true hc with h | h
          · exact Or.inl (List.mem_cons_of_mem _ h)
          · exact Or.inr h
      | true =>
        rw [show collapseWsAux (a :: s) true = collapseWsAux s true by
          simp [collapseWsAux, hw]] at hc
        rcases mem_collapseWsAux s true hc with h | h
        · exact Or.inl (List.mem_cons_of_mem _ h)
        · exact Or.inr h
    · rw [show collapseWsAux (a :: s) b = a :: collapseWsAux s false by
        cases b <;> simp [collapseWsAux, hw]] at hc
      rcases List.mem_cons.1 hc with rfl | hc
      · exact Or.inl (List.mem_cons_self _ _)
      · rcases mem_collapseWsAux s false hc with h | h
        · exact Or.inl (List.mem_cons_of_mem _ h)
        · exact Or.inr h

theorem collapseWsAux_ws_space :
    ∀ (s : List Char) (b : Bool) (c : Char),
      c ∈ collapseWsAux s b → pyWs c = true → c = ' '
  | [], b, c => by simp [collapseWsAux]
  | a :: s, b, c => by
    intro hc hwc
    by_cases hw : pyWs a = true
    · cases b with
      | false =>
        rw [show collapseWsAux (a :: s) false = ' ' :: collapseWsAux s true by
          simp [collapseWsAux, hw]] at hc
        rcases List.mem_cons.1 hc with rfl | hc
        · rfl
        · exact collapseWsAux_ws_space s true c hc hwc
      | true =>
        rw [show collapseWsAux (a :: s) true = collapseWsAux s true by
          simp [collapseWsAux, hw]] at hc
        exact collapseWsAux_ws_space s true c hc hwc
    · rw [show collapseWsAux (a :: s) b = a :: collapseWsAux s false by
        cases b <;> simp [collapseWsAux, hw]] at hc
      rcases List.mem_cons.1 hc with rfl | hc
      · exact absurd hwc (by simp [hw])
      · exact collapseWsAux_ws_space s false c hc hwc

theorem collapseWsAux_chain :
    ∀ s : List Char,
      List.Chain' wsSep (collapseWsAux s false) ∧
      List.Chain' wsSep (collapseWsAux s true) ∧
      ∀ c, (collapseWsAux s true).head? = some c → pyWs c = false
  | [] => ⟨List.chain'_nil, List.chain'_nil, by simp [collapseWsAux]⟩
  | a :: s => by
    obtain ⟨ihF, ihT, ihH⟩ := collapseWsAux_chain s
    by_cases hw : pyWs a = true
    · have hF : collapseWsAux (a :: s) false = ' ' :: collapseWsAux s true := by
        simp [collapseWsAux, hw]
      have hT : collapseWsAux (a :: s) true = collapseWsAux s true := by
        simp [collapseWsAux, hw]
      refine ⟨?_, ?_, ?_⟩
      · rw [hF]
        refine List.chain'_cons'.2 ⟨?_, ihT⟩
        intro y hy
        exact Or.inr (ihH y (Option.mem_def.1 hy))
      · rw [hT]
        exact ihT
      · intro c hc
        rw [hT] at hc
        exact ihH c hc
    · have hw' : pyWs a = false := Bool.eq_false_iff.2 hw
      have hstep : ∀ b : Bool, collapseWsAux (a :: s) b = a :: collapseWsAux s false := by
        intro b
        cases b <;> simp [collapseWsAux, hw]
      refine ⟨?_, ?_, ?_⟩
      · rw [hstep]
        exact List.chain'_cons'.2 ⟨fun y _ => Or.inl hw', ihF⟩
      · rw [hstep]
        exact List.chain'_cons'.2 ⟨fun y _ => Or.inl hw', ihF⟩
      · intro c hc
        rw [hstep, List.head?_cons] at hc
        rw [← Option.some_inj.1 hc]
        exact hw'

theorem removeURLsAux_sublist :
    ∀ (s : List Char) (b : Bool), (removeURLsAux s b).Sublist s
  | [], _ => List.Sublist.refl _
  | c :: cs, b => by
    simp only [removeURLsAux]
    split
    · exact (removeURLsAux_sublist cs true).cons c
    · split
      · exact (removeURLsAux_sublist cs true).cons c
      · exact (removeURLsAux_sublist cs false).cons₂ c

theorem removeEmailsAux_sublist :
    ∀ (s : List Char) (m : TokMode), (removeEmailsAux s m).Sublist s
  | [], _ => List.Sublist.refl _
  | c :: cs, m => by
    by_cases hw : pyWs c = true
    · rw [show removeEmailsAux (c :: cs) m = c :: removeEmailsAux cs .out by
        simp [removeEmailsAux, hw]]
      exact (removeEmailsAux_sublist cs .out).cons₂ c
    · have hw' : pyWs c = false := Bool.eq_false_iff.2 hw
      cases m with
      | out =>
        by_cases htok : emailToken (c :: cs.takeWhile fun x => !pyWs x) = true
        · rw [show removeEmailsAux (c :: cs) .out = removeEmailsAux cs .drop by
            simp [removeEmailsAux, hw', htok]]
          exact (removeEmailsAux_sublist cs .drop).cons c
        · rw [show removeEmailsAux (c :: cs) .out = c :: removeEmailsAux cs .keep by
            simp [removeEmailsAux, hw', htok]]
          exact (removeEmailsAux_sublist cs .keep).cons₂ c
      | keep =>
        rw [show removeEmailsAux (c :: cs) .keep = c :: removeEmailsAux cs .keep by
          simp [removeEmailsAux, hw]]
        exact (removeEmailsAux_sublist cs .keep).cons₂ c
      | drop =>
        rw [show removeEmailsAux (c :: cs) .drop = removeEmailsAux cs .drop by
          simp [removeEmailsAux, hw]]
        exact (removeEmailsAux_sublist cs .drop).cons c

theorem pyStrip_sublist (s : List Char) : (pyStrip s).Sublist s :=
  (pyStrip_within s).sublist

theorem dropWhile_head_not {α : Type} (p : α → Bool) (l : List α) :
    ∀ c, (l.dropWhile p).head? = some c → p c = false := by
  intro c hc
  have h := List.head?_dropWhile_not p l
  rw [hc] at h
  exact h

theorem pyStrip_getLast (u : List Char) :
    ∀ c, (pyStrip u).getLast? = some c → pyWs c = false := by
  intro c hc
  unfold pyStrip at hc
  rw [List.getLast?_reverse] at hc
  exact dropWhile_head_not _ _ c hc

theorem pyStrip_head (u : List Char) :
    ∀ c, (pyStrip u).head? = some c → pyWs c = false := by
  intro c hc
  unfold pyStrip at hc
  rw [List.head?_reverse] at hc
  obtain ⟨pre, hpre⟩ := List.dropWhile_suffix (l := (u.dropWhile pyWs).reverse) pyWs
  have hy : (pre ++ (u.dropWhile pyWs).reverse.dropWhile pyWs).getLast? = some c := by
    rw [List.getLast?_append, hc]
    rfl
  rw [hpre, List.getLast?_reverse] at hy
  exact dropWhile_head_not _ _ c hy

theorem collapse_id :
    ∀ t : List Char, (∀ c ∈ t, pyWs c = true → c = ' ') → List.Chain' wsSep t →
      collapseWsAux t false = t ∧
        ((∀ c, t.head? = some c → pyWs c = false) → collapseWsAux t true = t)
  | [], _, _ => ⟨rfl, fun _ => rfl⟩
  | a :: t, hsp, hch => by
    have hsp' : ∀ c ∈ t, pyWs c = true → c = ' ' :=
      fun c hc => hsp c (List.mem_cons_of_mem _ hc)
    obtain ⟨hhead, hch'⟩ := List.chain'_cons'.1 hch
    by_cases hw : pyWs a = true
    · have ha : a = ' ' := hsp a (List.mem_cons_self _ _) hw
      have hthead : ∀ c, t.head? = some c → pyWs c = false := by
        intro c hc
        rcases hhead c (Option.mem_def.2 hc) with h | h
        · rw [hw] at h
          cases h
        · exact h
      have hT := (collapse_id t hsp' hch').2 hthead
      refine ⟨?_, fun hh => absurd (hh a rfl) (by simp [hw])⟩
      rw [show collapseWsAux (a :: t) false = ' ' :: collapseWsAux t true by
        simp [collapseWsAux, hw], hT, ha]
    · have hF := (collapse_id t hsp' hch').1
      have hstep : ∀ b : Bool, collapseWsAux (a :: t) b = a :: collapseWsAux t false := by
        intro b
        cases b <;> simp [collapseWsAux, hw]
      exact ⟨by rw [hstep, hF], fun _ => by rw [hstep, hF]⟩

theorem pyStrip_id (t : List Char)
    (hh : ∀ c, t.head? = some c → pyWs c = false)
    (hl : ∀ c, t.getLast? = some c → pyWs c = false) : pyStrip t = t := by
  have h1 : t.dropWhile pyWs = t := by
    cases t with
    | nil => rfl
    | cons a t => rw [List.dropWhile_cons, if_neg (by simp [hh a rfl])]
  unfold pyStrip
  rw [h1]
  have h2 : t.reverse.dropWhile pyWs = t.reverse := by
    rcases ht : t.reverse with _ | ⟨a, tr⟩
    · rfl
    · rw [List.dropWhile_cons, if_neg ?_]
      have hla : t.getLast? = some a := by
        rw [← List.head?_reverse, ht]
        rfl
      simp [hl a hla]
  rw [h2, List.reverse_reverse]

/-! ### Generic run-collapse lemmas (C9, `clean_text`) -/

theorem collapseWsAux_eq_runs :
    ∀ (s : List Char) (b : Bool), collapseWsAux s b = collapseRunsAux pyWs ' ' s b
  | [], _ => rfl
  | c :: cs, b => by
    by_cases hw : pyWs c = true <;> cases b <;>
      simp [collapseWsAux, collapseRunsAux, hw, collapseWsAux_eq_runs cs true,
        collapseWsAux_eq_runs cs false]

theorem collapseRunsAux_pos_false {p : Char → Bool} {r a : Char} {s : List Char}
    (h : p a = true) :
    collapseRunsAux p r (a :: s) false = r :: collapseRunsAux p r s true := by
  simp [collapseRunsAux, h]

theorem collapseRunsAux_pos_true {p : Char → Bool} {r a : Char} {s : List Char}
    (h : p a = true) :
    collapseRunsAux p r (a :: s) true = collapseRunsAux p r s true := by
  simp [collapseRunsAux, h]

theorem collapseRunsAux_neg {p : Char → Bool} {r a : Char} {s : List Char}
    (h : p a = false) (b : Bool) :
    collapseRunsAux p r (a :: s) b = a :: collapseRunsAux p r s false := by
  cases b <;> simp [collapseRunsAux, h]

theorem collapseRunsAux_skip {p : Char → Bool} {r : Char} :
    ∀ s : List Char,
      collapseRunsAux p r s true = collapseRunsAux p r (s.dropWhile p) false
  | [] => rfl
  | a :: s => by
    rcases Bool.eq_false_or_eq_true (p a) with h | h
    · rw [collapseRunsAux_pos_true h, List.dropWhile_cons, if_pos h]
      exact collapseRunsAux_skip s
    · rw [List.dropWhile_cons, if_neg (by simp [h]), collapseRunsAux_neg h true,
        collapseRunsAux_neg h false]

theorem suffix_collapseRuns {p : Char → Bool} {r : Char} :
    ∀ (n : ℕ) (s : List Char), s.length ≤ n → ∀ t, t <:+ collapseRunsAux p r s false →
      ∃ s', s' <:+ s ∧ t = collapseRunsAux p r s' false
  | _, [], _, t, ht => ⟨[], List.suffix_rfl, by simpa using List.suffix_nil.1 ht⟩
  | 0, c :: cs, hlen, _, _ => absurd hlen (by simp)
  | n + 1, c :: cs, hlen, t, ht => by
    have hlen' : cs.length ≤ n := by simp at hlen; omega
    rcases Bool.eq_false_or_eq_true (p c) with h | h
    · rw [collapseRunsAux_pos_false h, collapseRunsAux_skip] at ht
      rcases List.suffix_cons_iff.1 ht with rfl | ht'
      · exact ⟨c :: cs, List.suffix_rfl,
          by rw [collapseRunsAux_pos_false h, collapseRunsAux_skip]⟩
      · have hlen'' : (cs.dropWhile p).length ≤ n :=
          le_trans (List.dropWhile_suffix p).length_le hlen'
        obtain ⟨s', hs', rfl⟩ := suffix_collapseRuns n (cs.dropWhile p) hlen'' t ht'
        exact ⟨s', (hs'.trans (List.dropWhile_suffix p)).trans (List.suffix_cons c cs), rfl⟩
    · rw [collapseRunsAux_neg h] at ht
      rcases List.suffix_cons_iff.1 ht with rfl | ht'
      · exact ⟨c :: cs, List.suffix_rfl, (collapseRunsAux_neg h false).symm⟩
      · obtain ⟨s', hs', rfl⟩ := suffix_collapseRuns n cs hlen' t ht'
        exact ⟨s', hs'.trans (List.suffix_cons c cs), rfl⟩

theorem collapseRuns_mem {p : Char → Bool} {r c : Char} :
    ∀ (s : List Char) (b : Bool), c ∈ collapseRunsAux p r s b → c ∈ s ∨ c = r
  | [], b => by simp [collapseRunsAux]
  | a :: s, b => by
    intro hc
    rcases Bool.eq_false_or_eq_true (p a) with h | h
    · cases b with
      | false =>
        rw [collapseRunsAux_pos_false h] at hc
        rcases List.mem_cons.1 hc with rfl | hc
        · exact Or.inr rfl
        · rcases collapseRuns_mem s true hc with h1 | h1
          · exact Or.inl (List.mem_cons_of_mem _ h1)
          · exact Or.inr h1
      | true =>
        rw [collapseRunsAux_pos_true h] at hc
        rcases collapseRuns_mem s true hc with h1 | h1
        · exact Or.inl (List.mem_cons_of_mem _ h1)
        · exact Or.inr h1
    · rw [collapseRunsAux_neg h] at hc
      rcases List.mem_cons.1 hc with rfl | hc
      · exact Or.inl (List.mem_cons_self _ _)
      · rcases collapseRuns_mem s false hc with h1 | h1
        · exact Or.inl (List.mem_cons_of_mem _ h1)
        · exact Or.inr h1

theorem collapseRuns_classChar {p : Char → Bool} {r c : Char} :
    ∀ (s : List Char) (b : Bool), c ∈ collapseRunsAux p r s b → p c = true → c = r
  | [], b => by simp [collapseRunsAux]
  | a :: s, b => by
    intro hc hpc
    rcases Bool.eq_false_or_eq_true (p a) with h | h
    · cases b with
      | false =>
        rw [collapseRunsAux_pos_false h] at hc
        rcases List.mem_cons.1 hc with rfl | hc
        · rfl
        · exact collapseRuns_classChar s true hc hpc
      | true =>
        rw [collapseRunsAux_pos_true h] at hc
        exact collapseRuns_classChar s true hc hpc
    · rw [collapseRunsAux_neg h] at hc
      rcases List.mem_cons.1 hc with rfl | hc
      · rw [hpc] at h
        cases h
      · exact collapseRuns_classChar s false hc hpc

theorem collapseRuns_headSplit {p : Char → Bool} {r : Char} :
    ∀ (s : List Char) (y : Char),
      (collapseRunsAux p r s false).head? = some y → y = r ∨ s.head? = some y
  | [], y => by simp [collapseRunsAux]
  | a :: s, y => by
    intro hy
    rcases Bool.eq_false_or_eq_true (p a) with h | h
    · rw [collapseRunsAux_pos_false h, List.head?_cons] at hy
      exact Or.inl (Option.some_inj.1 hy).symm
    · rw [collapseRunsAux_neg h, List.head?_cons] at hy
      rw [List.head?_cons]
      exact Or.inr hy

theorem collapseRuns_chain {p : Char → Bool} {r : Char} :
    ∀ s : List Char,
      List.Chain' (fun a b => p a = false ∨ p b = false) (collapseRunsAux p r s false) ∧
      List.Chain' (fun a b => p a = false ∨ p b = false) (collapseRunsAux p r s true) ∧
      ∀ c, (collapseRunsAux p r s true).head? = some c → p c = false
  | [] => ⟨List.chain'_nil, List.chain'_nil, by simp [collapseRunsAux]⟩
  | a :: s => by
    obtain ⟨ihF, ihT, ihH⟩ := collapseRuns_chain (p := p) (r := r) s
    rcases Bool.eq_false_or_eq_true (p a) with h | h
    · refine ⟨?_, ?_, ?_⟩
      · rw [collapseRunsAux_pos_false h]
        exact List.chain'_cons'.2 ⟨fun y hy => Or.inr (ihH y (Option.mem_def.1 hy)), ihT⟩
      · rw [collapseRunsAux_pos_true h]
        exact ihT
      · intro c hc
        rw [collapseRunsAux_pos_true h] at hc
        exact ihH c hc
    · refine ⟨?_, ?_, ?_⟩
      · rw [collapseRunsAux_neg h]
        exact List.chain'_cons'.2 ⟨fun y _ => Or.inl h, ihF⟩
      · rw [collapseRunsAux_neg h]
        exact List.chain'_cons'.2 ⟨fun y _ => Or.inl h, ihF⟩
      · intro c hc
        rw [collapseRunsAux_neg h, List.head?_cons] at hc
        rw [← Option.some_inj.1 hc]
        exact h

theorem collapseRuns_chain_pres {p A : Char → Bool} {r : Char} (hA : A r = false) :
    ∀ (s : List Char) (b : Bool),
      List.Chain' (fun a b => A a = false ∨ A b = false) s →
      List.Chain' (fun a b => A a = false ∨ A b = false) (collapseRunsAux p r s b)
  | [], b => fun _ => by
    cases b <;> exact List.chain'_nil
  | a :: s, b => by
    intro hch
    obtain ⟨hhead, hch'⟩ := List.chain'_cons'.1 hch
    rcases Bool.eq_false_or_eq_true (p a) with h | h
    · cases b with
      | false =>
        rw [collapseRunsAux_pos_false h]
        refine List.chain'_cons'.2 ⟨fun y _ => Or.inl hA, ?_⟩
        exact collapseRuns_chain_pres hA s true hch'
      | true =>
        rw [collapseRunsAux_pos_true h]
        exact collapseRuns_chain_pres hA s true hch'
    · rw [collapseRunsAux_neg h]
      refine List.chain'_cons'.2 ⟨?_, collapseRuns_chain_pres hA s false hch'⟩
      intro y hy
      rcases collapseRuns_headSplit s y (Option.mem_def.1 hy) with rfl | hys
      · exact Or.inr hA
      · exact hhead y (Option.mem_def.2 hys)

theorem collapseRuns_id {p : Char → Bool} {r : Char} :
    ∀ t : List Char, (∀ c ∈ t, p c = true → c = r) →
      List.Chain' (fun a b => p a = false ∨ p b = false) t →
      collapseRunsAux p r t false = t ∧
        ((∀ c, t.head? = some c → p c = false) → collapseRunsAux p r t true = t)
  | [], _, _ => ⟨rfl, fun _ => rfl⟩
  | a :: t, hcl, hch => by
    have hcl' : ∀ c ∈ t, p c = true → c = r :=
      fun c hc => hcl c (List.mem_cons_of_mem _ hc)
    obtain ⟨hhead, hch'⟩ := List.chain'_cons'.1 hch
    rcases Bool.eq_false_or_eq_true (p a) with h | h
    · have ha : a = r := hcl a (List.mem_cons_self _ _) h
      have hthead : ∀ c, t.head? = some c → p c = false := by
        intro c hc
        rcases hhead c (Option.mem_def.2 hc) with h1 | h1
        · rw [h] at h1
          cases h1
        · exact h1
      have hT := (collapseRuns_id t hcl' hch').2 hthead
      refine ⟨?_, fun hh => absurd (hh a rfl) (by simp [h])⟩
      rw [collapseRunsAux_pos_false h, hT, ha]
    · have hF := (collapseRuns_id t hcl' hch').1
      refine ⟨?_, fun _ => ?_⟩ <;> rw [collapseRunsAux_neg h, hF]

theorem collapseNlAux_id : ∀ l : List Char, '\n' ∉ l → collapseNlAux l false = l
  | [], _ => rfl
  | c :: cs, h => by
    have hc : (c == '\n') = false := by
      simp only [beq_eq_false_iff_ne]
      exact fun hcc => h (hcc ▸ List.mem_cons_self _ _)
    rw [show collapseNlAux (c :: cs) false = c :: collapseNlAux cs false by
      simp [collapseNlAux, hc]]
    exact congrArg (c :: ·) (collapseNlAux_id cs fun hm => h (List.mem_cons_of_mem _ hm))

theorem collapseNl_id (l : List Char) (h : '\n' ∉ l) : collapseNl l = l :=
  collapseNlAux_id l h

theorem scheme_nonws_https : ∀ x ∈ "https://".toList, pyWs x = false := by decide

theorem scheme_nonws_http : ∀ x ∈ "http://".toList, pyWs x = false := by decide

theorem http_subset_https : ∀ c ∈ "http://".toList, c ∈ "https://".toList := by decide

theorem urlAt_iff {l : List Char} :
    urlAt l = true ↔
      (∃ d rest, l = "https://".toList ++ d :: rest ∧ pyWs d = false) ∨
      (∃ d rest, l = "http://".toList ++ d :: rest ∧ pyWs d = false) := by
  constructor
  · intro h
    unfold urlAt at h
    simp only [Bool.or_eq_true, Bool.and_eq_true] at h
    rcases h with ⟨hpre, hnw⟩ | ⟨hpre, hnw⟩
    · obtain ⟨tail, htail⟩ := List.isPrefixOf_iff_prefix.1 hpre
      left
      have hdrop : l.drop 8 = tail := by
        rw [← htail, show (8 : ℕ) = ("https://".toList).length from rfl, List.drop_left]
      rcases tail with _ | ⟨d, rest⟩
      · rw [hdrop] at hnw
        simp at hnw
      · refine ⟨d, rest, htail.symm, ?_⟩
        rw [hdrop] at hnw
        simpa using hnw
    · obtain ⟨tail, htail⟩ := List.isPrefixOf_iff_prefix.1 hpre
      right
      have hdrop : l.drop 7 = tail := by
        rw [← htail, show (7 : ℕ) = ("http://".toList).length from rfl, List.drop_left]
      rcases tail with _ | ⟨d, rest⟩
      · rw [hdrop] at hnw
        simp at hnw
      · refine ⟨d, rest, htail.symm, ?_⟩
        rw [hdrop] at hnw
        simpa using hnw
  · intro h
    unfold urlAt
    rcases h with ⟨d, rest, rfl, hd⟩ | ⟨d, rest, rfl, hd⟩
    · rw [Bool.or_eq_true]
      left
      rw [Bool.and_eq_true]
      refine ⟨List.isPrefixOf_iff_prefix.2 ⟨d :: rest, rfl⟩, ?_⟩
      have hdrop : ("https://".toList ++ d :: rest).drop 8 = d :: rest := by
        rw [show (8 : ℕ) = ("https://".toList).length from rfl, List.drop_left]
      rw [hdrop]
      show (!pyWs d) = true
      simp [hd]
    · rw [Bool.or_eq_true]
      right
      rw [Bool.and_eq_true]
      refine ⟨List.isPrefixOf_iff_prefix.2 ⟨d :: rest, rfl⟩, ?_⟩
      have hdrop : ("http://".toList ++ d :: rest).drop 7 = d :: rest := by
        rw [show (7 : ℕ) = ("http://".toList).length from rfl, List.drop_left]
      rw [hdrop]
      show (!pyWs d) = true
      simp [hd]

theorem urlAt_mono {l l' : List Char} (h : l <+: l') (hu : urlAt l = true) :
    urlAt l' = true := by
  obtain ⟨tail, rfl⟩ := h
  rcases urlAt_iff.1 hu with ⟨d, rest, heq, hd⟩ | ⟨d, rest, heq, hd⟩
  · refine urlAt_iff.2 (Or.inl ⟨d, rest ++ tail, ?_, hd⟩)
    rw [heq]
    simp
  · refine urlAt_iff.2 (Or.inr ⟨d, rest ++ tail, ?_, hd⟩)
    rw [heq]
    simp

theorem urlAt_ws_head {c : Char} {cs : List Char} (h : pyWs c = true) :
    urlAt (c :: cs) = false := by
  rcases Bool.eq_false_or_eq_true (urlAt (c :: cs)) with hu | hu
  swap
  · exact hu
  exfalso
  rcases urlAt_iff.1 hu with ⟨d, rest, heq, -⟩ | ⟨d, rest, heq, -⟩
  · rw [show "https://".toList = 'h' :: "ttps://".toList from rfl,
      List.cons_append] at heq
    injection heq with h1 _
    rw [h1] at h
    exact absurd h (by decide)
  · rw [show "http://".toList = 'h' :: "ttp://".toList from rfl,
      List.cons_append] at heq
    injection heq with h1 _
    rw [h1] at h
    exact absurd h (by decide)

theorem urlAt_of_scheme_head {sch l : List Char} {d : Char}
    (hs : sch = "https://".toList ∨ sch = "http://".toList)
    (hd : pyWs d = false) (hp : (sch ++ [d]) <+: l) : urlAt l = true := by
  obtain ⟨tail, htail⟩ := hp
  rcases hs with rfl | rfl
  · refine urlAt_iff.2 (Or.inl ⟨d, tail, ?_, hd⟩)
    rw [← htail]
    simp
  · refine urlAt_iff.2 (Or.inr ⟨d, tail, ?_, hd⟩)
    rw [← htail]
    simp

theorem urlAt_scheme_decomp {l : List Char} (h : urlAt l = true) :
    ∃ sch d, (sch = "https://".toList ∨ sch = "http://".toList) ∧ pyWs d = false ∧
      (∀ c ∈ sch, pyWs c = false) ∧ (sch ++ [d]) <+: l := by
  rcases urlAt_iff.1 h with ⟨d, rest, heq, hd⟩ | ⟨d, rest, heq, hd⟩
  · exact ⟨_, d, Or.inl rfl, hd, scheme_nonws_https, ⟨rest, by rw [heq]; simp⟩⟩
  · exact ⟨_, d, Or.inr rfl, hd, scheme_nonws_http, ⟨rest, by rw [heq]; simp⟩⟩

theorem emailToken_iff {t : List Char} :
    emailToken t = true ↔ ∃ x y, t = x ++ '@' :: y ∧ x ≠ [] ∧ y ≠ [] := by
  constructor
  · intro h
    unfold emailToken at h
    have hmem : '@' ∈ (t.drop 1).dropLast := List.elem_iff.1 h
    rcases t with _ | ⟨c0, t1⟩
    · simp at hmem
    · have h1 : ((c0 :: t1).drop 1) = t1 := rfl
      rw [h1] at hmem
      have hne : t1 ≠ [] := by
        intro h0
        rw [h0] at hmem
        simp at hmem
      obtain ⟨u, v, huv⟩ := List.append_of_mem hmem
      have h2 : t1.dropLast ++ [t1.getLast hne] = t1 := List.dropLast_append_getLast hne
      refine ⟨c0 :: u, v ++ [t1.getLast hne], ?_, by simp, by simp⟩
      rw [show c0 :: t1 = c0 :: (t1.dropLast ++ [t1.getLast hne]) from by rw [h2], huv]
      simp
  · rintro ⟨x, y, rfl, hx, hy⟩
    rcases x with _ | ⟨x0, xs⟩
    · exact absurd rfl hx
    rcases y.eq_nil_or_concat with rfl | ⟨ys, yl, rfl⟩
    · exact absurd rfl hy
    unfold emailToken
    refine List.elem_iff.2 ?_
    have h1 : ((x0 :: (xs ++ '@' :: ys.concat yl)).drop 1) = xs ++ '@' :: ys.concat yl := rfl
    rw [show (x0 :: xs) ++ '@' :: ys.concat yl = x0 :: (xs ++ '@' :: ys.concat yl) from rfl,
      h1, List.concat_eq_append,
      show xs ++ '@' :: (ys ++ [yl]) = (xs ++ '@' :: ys) ++ [yl] from by simp,
      List.dropLast_concat]
    simp

theorem takeWhile_append_all {q : Char → Bool} :
    ∀ (v t : List Char), (∀ c ∈ v, q c = true) →
      (v ++ t).takeWhile q = v ++ t.takeWhile q
  | [], t, _ => rfl
  | a :: v, t, h => by
    rw [List.cons_append, List.takeWhile_cons, if_pos (h a (List.mem_cons_self _ _)),
      takeWhile_append_all v t fun c hc => h c (List.mem_cons_of_mem _ hc)]
    rfl

theorem takeWhile_append_ws :
    ∀ (u w : List Char), (∀ c ∈ w, pyWs c = true) →
      ((u ++ w).takeWhile fun x => !pyWs x) = u.takeWhile fun x => !pyWs x
  | [], w, h => by
    rcases w with _ | ⟨c, cs⟩
    · rfl
    · rw [List.nil_append, List.takeWhile_cons, if_neg (by simp [h c (List.mem_cons_self _ _)])]
      rfl
  | a :: u, w, h => by
    rw [List.cons_append, List.takeWhile_cons, List.takeWhile_cons]
    rcases Bool.eq_false_or_eq_true (pyWs a) with ha | ha
    · rw [if_neg (by simp [ha]), if_neg (by simp [ha])]
    · rw [if_pos (by simp [ha]), if_pos (by simp [ha]), takeWhile_append_ws u w h]

theorem removeURLsAux_skip :
    ∀ s : List Char,
      removeURLsAux s true = removeURLsAux (s.dropWhile fun x => !pyWs x) false
  | [] => rfl
  | c :: cs => by
    rcases Bool.eq_false_or_eq_true (pyWs c) with hw | hw
    · rw [show removeURLsAux (c :: cs) true = c :: removeURLsAux cs false by
        simp [removeURLsAux, hw]]
      rw [List.dropWhile_cons, if_neg (by simp [hw])]
      rw [show removeURLsAux (c :: cs) false = c :: removeURLsAux cs false by
        simp [removeURLsAux, hw, urlAt_ws_head hw]]
    · rw [show removeURLsAux (c :: cs) true = removeURLsAux cs true by
        simp [removeURLsAux, hw]]
      rw [List.dropWhile_cons, if_pos (by simp [hw])]
      exact removeURLsAux_skip cs

theorem removeURLs_suffix :
    ∀ (n : ℕ) (s : List Char), s.length ≤ n → ∀ t, t <:+ removeURLsAux s false →
      ∃ s', s' <:+ s ∧ t = removeURLsAux s' false
  | _, [], _, t, ht => ⟨[], List.suffix_rfl, by simpa using List.suffix_nil.1 ht⟩
  | 0, c :: cs, hlen, _, _ => absurd hlen (by simp)
  | n + 1, c :: cs, hlen, t, ht => by
    have hlen' : cs.length ≤ n := by simp at hlen; omega
    rcases Bool.eq_false_or_eq_true (urlAt (c :: cs)) with hu | hu
    · rw [show removeURLsAux (c :: cs) false = removeURLsAux cs true by
        simp [removeURLsAux, hu], removeURLsAux_skip] at ht
      have hlen'' : (cs.dropWhile fun x => !pyWs x).length ≤ n :=
        le_trans (List.dropWhile_suffix _).length_le hlen'
      obtain ⟨s', hs', rfl⟩ := removeURLs_suffix n _ hlen'' t ht
      exact ⟨s', (hs'.trans (List.dropWhile_suffix _)).trans (List.suffix_cons c cs), rfl⟩
    · rw [show removeURLsAux (c :: cs) false = c :: removeURLsAux cs false by
        simp [removeURLsAux, hu]] at ht
      rcases List.suffix_cons_iff.1 ht with rfl | ht'
      · exact ⟨c :: cs, List.suffix_rfl,
          by rw [show removeURLsAux (c :: cs) false = c :: removeURLsAux cs false by
            simp [removeURLsAux, hu]]⟩
      · obtain ⟨s', hs', rfl⟩ := removeURLs_suffix n cs hlen' t ht'
        exact ⟨s', hs'.trans (List.suffix_cons c cs), rfl⟩

theorem prefix_removeURLs :
    ∀ (s v : List Char), (∀ c ∈ v, pyWs c = false) → v <+: removeURLsAux s false →
      v <+: s
  | [], v, _, hv => by simpa [removeURLsAux] using hv
  | c :: cs, v, hnws, hv => by
    rcases Bool.eq_false_or_eq_true (urlAt (c :: cs)) with hu | hu
    · rw [show removeURLsAux (c :: cs) false = removeURLsAux cs true by
        simp [removeURLsAux, hu], removeURLsAux_skip] at hv
      rcases v with _ | ⟨a, v₂⟩
      · exact List.nil_prefix
      · exfalso
        rcases hd : cs.dropWhile (fun x => !pyWs x) with _ | ⟨y, ys⟩
        · rw [hd] at hv
          simp [removeURLsAux] at hv
        · have hy : pyWs y = true := by
            simpa using dropWhile_head_not (fun x => !pyWs x) cs y (by rw [hd]; rfl)
          rw [hd, show removeURLsAux (y :: ys) false = y :: removeURLsAux ys false by
            simp [removeURLsAux, hy, urlAt_ws_head hy]] at hv
          obtain ⟨heq, -⟩ := List.cons_prefix_cons.1 hv
          rw [← heq] at hy
          exact absurd hy (by simp [hnws a (List.mem_cons_self _ _)])
    · rw [show removeURLsAux (c :: cs) false = c :: removeURLsAux cs false by
        simp [removeURLsAux, hu]] at hv
      rcases v with _ | ⟨a, v₂⟩
      · exact List.nil_prefix
      · obtain ⟨rfl, hv₂⟩ := List.cons_prefix_cons.1 hv
        exact List.cons_prefix_cons.2 ⟨rfl,
          prefix_removeURLs cs v₂ (fun x hx => hnws x (List.mem_cons_of_mem _ hx)) hv₂⟩

theorem removeURLs_dropHead_ws (X : List Char) :
    ∀ c, (removeURLsAux (X.dropWhile fun x => !pyWs x) false).head? = some c →
      pyWs c = true := by
  intro c hc
  rcases hd : X.dropWhile (fun x => !pyWs x) with _ | ⟨y, ys⟩
  · rw [hd] at hc
    simp [removeURLsAux] at hc
  · have hy : pyWs y = true := by
      simpa using dropWhile_head_not (fun x => !pyWs x) X y (by rw [hd]; rfl)
    rw [hd, show removeURLsAux (y :: ys) false = y :: removeURLsAux ys false by
      simp [removeURLsAux, hy, urlAt_ws_head hy], List.head?_cons] at hc
    rw [← Option.some_inj.1 hc]
    exact hy

theorem urlAt_removeURLs : ∀ s : List Char, urlAt (removeURLsAux s false) = false
  | [] => by decide
  | c :: cs => by
    rcases Bool.eq_false_or_eq_true (urlAt (c :: cs)) with hu | hu
    · rw [show removeURLsAux (c :: cs) false = removeURLsAux cs true by
        simp [removeURLsAux, hu], removeURLsAux_skip]
      rcases Bool.eq_false_or_eq_true
        (urlAt (removeURLsAux (cs.dropWhile fun x => !pyWs x) false)) with h2 | h2
      swap
      · exact h2
      exfalso
      rcases urlAt_iff.1 h2 with ⟨d, rest, heq, -⟩ | ⟨d, rest, heq, -⟩ <;>
      · have hh : (removeURLsAux (cs.dropWhile fun x => !pyWs x) false).head?
            = some 'h' := by
          rw [heq]
          rfl
        exact absurd (removeURLs_dropHead_ws cs 'h' hh) (by decide)
    · rw [show removeURLsAux (c :: cs) false = c :: removeURLsAux cs false by
        simp [removeURLsAux, hu]]
      rcases Bool.eq_false_or_eq_true (urlAt (c :: removeURLsAux cs false)) with h2 | h2
      swap
      · exact h2
      exfalso
      obtain ⟨sch, d, hsch, hd, hschn, hpre⟩ := urlAt_scheme_decomp h2
      have hnw : ∀ x ∈ sch ++ [d], pyWs x = false := by
        intro x hx
        rcases List.mem_append.1 hx with hx | hx
        · exact hschn x hx
        · rw [List.mem_singleton.1 hx]
          exact hd
      have hpre' : (sch ++ [d]) <+: removeURLsAux (c :: cs) false := by
        rw [show removeURLsAux (c :: cs) false = c :: removeURLsAux cs false by
          simp [removeURLsAux, hu]]
        exact hpre
      have hv := prefix_removeURLs (c :: cs) _ hnw hpre'
      exact absurd (urlAt_of_scheme_head hsch hd hv) (by simp [hu])

theorem noUrl_removeURLs (s : List Char) : noUrl (removeURLsAux s false) := by
  intro t ht
  obtain ⟨s', -, rfl⟩ := removeURLs_suffix s.length s le_rfl t ht
  exact urlAt_removeURLs s'

theorem removeURLsAux_id_noUrl : ∀ l : List Char, noUrl l → removeURLsAux l false = l
  | [], _ => rfl
  | c :: cs, h => by
    have hu : urlAt (c :: cs) = false := h (c :: cs) List.suffix_rfl
    rw [show removeURLsAux (c :: cs) false = c :: removeURLsAux cs false by
      simp [removeURLsAux, hu]]
    exact congrArg (c :: ·) (removeURLsAux_id_noUrl cs fun t ht =>
      h t (ht.trans (List.suffix_cons c cs)))

theorem removeEmailsAux_skip :
    ∀ s : List Char,
      removeEmailsAux s .drop = removeEmailsAux (s.dropWhile fun x => !pyWs x) .out
  | [] => rfl
  | c :: cs => by
    rcases Bool.eq_false_or_eq_true (pyWs c) with hw | hw
    · rw [show removeEmailsAux (c :: cs) .drop = c :: removeEmailsAux cs .out by
        simp [removeEmailsAux, hw]]
      rw [List.dropWhile_cons, if_neg (by simp [hw])]
      rw [show removeEmailsAux (c :: cs) .out = c :: removeEmailsAux cs .out by
        simp [removeEmailsAux, hw]]
    · rw [show removeEmailsAux (c :: cs) .drop = removeEmailsAux cs .drop by
        simp [removeEmailsAux, hw]]
      rw [List.dropWhile_cons, if_pos (by simp [hw])]
      exact removeEmailsAux_skip cs

theorem emailToken_cons {c : Char} {w : List Char} (h : emailToken w = true) :
    emailToken (c :: w) = true := by
  unfold emailToken at h ⊢
  have hmem : '@' ∈ (w.drop 1).dropLast := List.elem_iff.1 h
  refine List.elem_iff.2 ?_
  show '@' ∈ w.dropLast
  rcases w with _ | ⟨a, w₂⟩
  · simp at hmem
  · rw [show ((a :: w₂).drop 1) = w₂ from rfl] at hmem
    rcases w₂ with _ | ⟨b, w₃⟩
    · simp at hmem
    · exact List.mem_cons_of_mem a hmem

theorem emailToken_cons_false {c : Char} {w : List Char}
    (h : emailToken (c :: w) = false) : emailToken w = false := by
  rcases Bool.eq_false_or_eq_true (emailToken w) with h1 | h1
  · rw [emailToken_cons h1] at h
    cases h
  · exact h1

theorem takeWhile_removeEmails_keep :
    ∀ s : List Char,
      ((removeEmailsAux s .keep).takeWhile fun x => !pyWs x) =
        s.takeWhile fun x => !pyWs x
  | [] => rfl
  | c :: cs => by
    rcases Bool.eq_false_or_eq_true (pyWs c) with hw | hw
    · rw [show removeEmailsAux (c :: cs) .keep = c :: removeEmailsAux cs .out by
        simp [removeEmailsAux, hw]]
      rw [List.takeWhile_cons, List.takeWhile_cons, if_neg (by simp [hw]),
        if_neg (by simp [hw])]
    · rw [show removeEmailsAux (c :: cs) .keep = c :: removeEmailsAux cs .keep by
        simp [removeEmailsAux, hw]]
      rw [List.takeWhile_cons, List.takeWhile_cons, if_pos (by simp [hw]),
        if_pos (by simp [hw]), takeWhile_removeEmails_keep cs]

theorem removeEmails_dropHead_ws (X : List Char) :
    ∀ c, (removeEmailsAux (X.dropWhile fun x => !pyWs x) .out).head? = some c →
      pyWs c = true := by
  intro c hc
  rcases hd : X.dropWhile (fun x => !pyWs x) with _ | ⟨y, ys⟩
  · rw [hd] at hc
    simp [removeEmailsAux] at hc
  · have hy : pyWs y = true := by
      simpa using dropWhile_head_not (fun x => !pyWs x) X y (by rw [hd]; rfl)
    rw [hd, show removeEmailsAux (y :: ys) .out = y :: removeEmailsAux ys .out by
      simp [removeEmailsAux, hy], List.head?_cons] at hc
    rw [← Option.some_inj.1 hc]
    exact hy

theorem emailToken_takeWhile_removeEmails :
    ∀ s : List Char,
      emailToken ((removeEmailsAux s .out).takeWhile fun x => !pyWs x) = false
  | [] => by decide
  | c :: cs => by
    rcases Bool.eq_false_or_eq_true (pyWs c) with hw | hw
    · rw [show removeEmailsAux (c :: cs) .out = c :: removeEmailsAux cs .out by
        simp [removeEmailsAux, hw]]
      rw [List.takeWhile_cons, if_neg (by simp [hw])]
      decide
    · by_cases htok : emailToken (c :: cs.takeWhile fun x => !pyWs x) = true
      · rw [show removeEmailsAux (c :: cs) .out = removeEmailsAux cs .drop by
          simp [removeEmailsAux, hw, htok], removeEmailsAux_skip]
        rcases hd : cs.dropWhile (fun x => !pyWs x) with _ | ⟨y, ys⟩
        · decide
        · have hy : pyWs y = true := by
            simpa using dropWhile_head_not (fun x => !pyWs x) cs y (by rw [hd]; rfl)
          rw [show removeEmailsAux (y :: ys) .out = y :: removeEmailsAux ys .out by
            simp [removeEmailsAux, hy]]
          rw [List.takeWhile_cons, if_neg (by simp [hy])]
          decide
      · have htok' : emailToken (c :: cs.takeWhile fun x => !pyWs x) = false :=
          Bool.eq_false_iff.2 htok
        rw [show removeEmailsAux (c :: cs) .out = c :: removeEmailsAux cs .keep by
          simp [removeEmailsAux, hw, htok']]
        rw [List.takeWhile_cons, if_pos (by simp [hw]), takeWhile_removeEmails_keep cs]
        exact htok'

theorem removeEmails_suffix :
    ∀ (n : ℕ) (s : List Char) (m : TokMode), s.length ≤ n → m ≠ .drop →
      (m = .keep → emailToken (s.takeWhile fun x => !pyWs x) = false) →
      ∀ t, t <:+ removeEmailsAux s m →
        ∃ s', s' <:+ s ∧
          (t = removeEmailsAux s' .out ∨
            (t = removeEmailsAux s' .keep ∧
              emailToken (s'.takeWhile fun x => !pyWs x) = false))
  | _, [], _, _, _, _, t, ht =>
    ⟨[], List.suffix_rfl, Or.inl (by simpa using List.suffix_nil.1 ht)⟩
  | 0, c :: cs, _, hlen, _, _, _, _ => absurd hlen (by simp)
  | n + 1, c :: cs, m, hlen, hnd, hkeep, t, ht => by
    have hlen' : cs.length ≤ n := by simp at hlen; omega
    rcases Bool.eq_false_or_eq_true (pyWs c) with hw | hw
    · -- whitespace head: every non-drop mode emits it and resets to `.out`
      have hstep : removeEmailsAux (c :: cs) m = c :: removeEmailsAux cs .out := by
        simp [removeEmailsAux, hw]
      rw [hstep] at ht
      rcases List.suffix_cons_iff.1 ht with rfl | ht'
      · refine ⟨c :: cs, List.suffix_rfl, Or.inl ?_⟩
        simp [removeEmailsAux, hw]
      · obtain ⟨s', hs', hres⟩ := removeEmails_suffix n cs .out hlen'
          (fun hc => TokMode.noConfusion hc) (fun hc => TokMode.noConfusion hc) t ht'
        exact ⟨s', hs'.trans (List.suffix_cons c cs), hres⟩
    · -- non-whitespace head
      cases m with
      | drop => exact absurd rfl hnd
      | keep =>
        rw [show removeEmailsAux (c :: cs) .keep = c :: removeEmailsAux cs .keep by
          simp [removeEmailsAux, hw]] at ht
        rcases List.suffix_cons_iff.1 ht with rfl | ht'
        · refine ⟨c :: cs, List.suffix_rfl, Or.inr ⟨?_, hkeep rfl⟩⟩
          rw [show removeEmailsAux (c :: cs) .keep = c :: removeEmailsAux cs .keep by
            simp [removeEmailsAux, hw]]
        · have hkeep' : emailToken (cs.takeWhile fun x => !pyWs x) = false := by
            have h0 := hkeep rfl
            rw [List.takeWhile_cons, if_pos (by simp [hw])] at h0
            exact emailToken_cons_false h0
          obtain ⟨s', hs', hres⟩ := removeEmails_suffix n cs .keep hlen'
            (fun hc => TokMode.noConfusion hc) (fun _ => hkeep') t ht'
          exact ⟨s', hs'.trans (List.suffix_cons c cs), hres⟩
      | out =>
        by_cases htok : emailToken (c :: cs.takeWhile fun x => !pyWs x) = true
        · rw [show removeEmailsAux (c :: cs) .out = removeEmailsAux cs .drop by
            simp [removeEmailsAux, hw, htok], removeEmailsAux_skip] at ht
          have hlen'' : (cs.dropWhile fun x => !pyWs x).length ≤ n :=
            le_trans (List.dropWhile_suffix _).length_le hlen'
          obtain ⟨s', hs', hres⟩ := removeEmails_suffix n _ .out hlen''
            (fun hc => TokMode.noConfusion hc) (fun hc => TokMode.noConfusion hc) t ht
          exact ⟨s', (hs'.trans (List.dropWhile_suffix _)).trans (List.suffix_cons c cs),
            hres⟩
        · have htok' : emailToken (c :: cs.takeWhile fun x => !pyWs x) = false :=
            Bool.eq_false_iff.2 htok
          rw [show removeEmailsAux (c :: cs) .out = c :: removeEmailsAux cs .keep by
            simp [removeEmailsAux, hw, htok']] at ht
          rcases List.suffix_cons_iff.1 ht with rfl | ht'
          · refine ⟨c :: cs, List.suffix_rfl, Or.inl ?_⟩
            rw [show removeEmailsAux (c :: cs) .out = c :: removeEmailsAux cs .keep by
              simp [removeEmailsAux, hw, htok']]
          · have hkeep' : emailToken (cs.takeWhile fun x => !pyWs x) = false :=
              emailToken_cons_false htok'
            obtain ⟨s', hs', hres⟩ := removeEmails_suffix n cs .keep hlen'
              (fun hc => TokMode.noConfusion hc) (fun _ => hkeep') t ht'
            exact ⟨s', hs'.trans (List.suffix_cons c cs), hres⟩

theorem noEmailSuf_removeEmails (s : List Char) :
    noEmailSuf (removeEmailsAux s .out) := by
  intro t ht
  obtain ⟨s', -, hres⟩ := removeEmails_suffix s.length s .out le_rfl
    (fun hc => TokMode.noConfusion hc) (fun hc => TokMode.noConfusion hc) t ht
  rcases hres with rfl | ⟨rfl, htok⟩
  · exact emailToken_takeWhile_removeEmails s'
  · rw [takeWhile_removeEmails_keep s']
    exact htok

theorem prefix_removeEmails :
    ∀ (s v : List Char), (∀ c ∈ v, pyWs c = false) →
      (v <+: removeEmailsAux s .out → v <+: s) ∧
        (v <+: removeEmailsAux s .keep → v <+: s)
  | [], v, _ =>
    ⟨fun hv => by simpa [removeEmailsAux] using hv,
      fun hv => by simpa [removeEmailsAux] using hv⟩
  | c :: cs, v, hnws => by
    have ihO := fun v h => (prefix_removeEmails cs v h).1
    have ihK := fun v h => (prefix_removeEmails cs v h).2
    rcases Bool.eq_false_or_eq_true (pyWs c) with hw | hw
    · have hstep : ∀ m, removeEmailsAux (c :: cs) m = c :: removeEmailsAux cs .out := by
        intro m
        simp [removeEmailsAux, hw]
      constructor <;>
      · intro hv
        rw [hstep] at hv
        rcases v with _ | ⟨a, v₂⟩
        · exact List.nil_prefix
        · obtain ⟨rfl, hv₂⟩ := List.cons_prefix_cons.1 hv
          exact List.cons_prefix_cons.2 ⟨rfl,
            ihO v₂ (fun x hx => hnws x (List.mem_cons_of_mem _ hx)) hv₂⟩
    · constructor
      · intro hv
        by_cases htok : emailToken (c :: cs.takeWhile fun x => !pyWs x) = true
        · rw [show removeEmailsAux (c :: cs) .out = removeEmailsAux cs .drop by
            simp [removeEmailsAux, hw, htok], removeEmailsAux_skip] at hv
          rcases v with _ | ⟨a, v₂⟩
          · exact List.nil_prefix
          · exfalso
            rcases hh : removeEmailsAux (cs.dropWhile fun x => !pyWs x) .out
              with _ | ⟨z, zs⟩
            · rw [hh] at hv
              simp at hv
            · rw [hh] at hv
              obtain ⟨heq, -⟩ := List.cons_prefix_cons.1 hv
              have hz : pyWs z = true := removeEmails_dropHead_ws cs z (by rw [hh]; rfl)
              rw [← heq] at hz
              exact absurd hz (by simp [hnws a (List.mem_cons_self _ _)])
        · have htok' : emailToken (c :: cs.takeWhile fun x => !pyWs x) = false :=
            Bool.eq_false_iff.2 htok
          rw [show removeEmailsAux (c :: cs) .out = c :: removeEmailsAux cs .keep by
            simp [removeEmailsAux, hw, htok']] at hv
          rcases v with _ | ⟨a, v₂⟩
          · exact List.nil_prefix
          · obtain ⟨rfl, hv₂⟩ := List.cons_prefix_cons.1 hv
            exact List.cons_prefix_cons.2 ⟨rfl,
              ihK v₂ (fun x hx => hnws x (List.mem_cons_of_mem _ hx)) hv₂⟩
      · intro hv
        rw [show removeEmailsAux (c :: cs) .keep = c :: removeEmailsAux cs .keep by
          simp [removeEmailsAux, hw]] at hv
        rcases v with _ | ⟨a, v₂⟩
        · exact List.nil_prefix
        · obtain ⟨rfl, hv₂⟩ := List.cons_prefix_cons.1 hv
          exact List.cons_prefix_cons.2 ⟨rfl,
            ihK v₂ (fun x hx => hnws x (List.mem_cons_of_mem _ hx)) hv₂⟩

theorem noUrl_removeEmails {l : List Char} (h : noUrl l) :
    noUrl (removeEmailsAux l .out) := by
  intro t ht
  obtain ⟨s', hs', hres⟩ := removeEmails_suffix l.length l .out le_rfl
    (fun hc => TokMode.noConfusion hc) (fun hc => TokMode.noConfusion hc) t ht
  rcases Bool.eq_false_or_eq_true (urlAt t) with h1 | h1
  swap
  · exact h1
  exfalso
  obtain ⟨sch, d, hs2, hd, hschn, hpre⟩ := urlAt_scheme_decomp h1
  have hnw : ∀ c ∈ sch ++ [d], pyWs c = false := by
    intro c hc
    rcases List.mem_append.1 hc with hc | hc
    · exact hschn c hc
    · rw [List.mem_singleton.1 hc]
      exact hd
  have hv : (sch ++ [d]) <+: s' := by
    rcases hres with rfl | ⟨rfl, -⟩
    · exact (prefix_removeEmails s' _ hnw).1 hpre
    · exact (prefix_removeEmails s' _ hnw).2 hpre
  exact absurd (urlAt_of_scheme_head hs2 hd hv) (by simp [h s' hs'])

theorem removeEmailsAux_id_noEmail :
    ∀ l : List Char, noEmailSuf l →
      removeEmailsAux l .out = l ∧ removeEmailsAux l .keep = l
  | [], _ => ⟨rfl, rfl⟩
  | c :: cs, h => by
    have ih := removeEmailsAux_id_noEmail cs fun t ht =>
      h t (ht.trans (List.suffix_cons c cs))
    rcases Bool.eq_false_or_eq_true (pyWs c) with hw | hw
    · constructor
      · rw [show removeEmailsAux (c :: cs) .out = c :: removeEmailsAux cs .out by
          simp [removeEmailsAux, hw]]
        exact congrArg (c :: ·) ih.1
      · rw [show removeEmailsAux (c :: cs) .keep = c :: removeEmailsAux cs .out by
          simp [removeEmailsAux, hw]]
        exact congrArg (c :: ·) ih.1
    · have htok : emailToken (c :: cs.takeWhile fun x => !pyWs x) = false := by
        have h0 := h (c :: cs) List.suffix_rfl
        rw [List.takeWhile_cons, if_pos (by simp [hw])] at h0
        exact h0
      constructor
      · rw [show removeEmailsAux (c :: cs) .out = c :: removeEmailsAux cs .keep by
          simp [removeEmailsAux, hw, htok]]
        exact congrArg (c :: ·) ih.2
      · rw [show removeEmailsAux (c :: cs) .keep = c :: removeEmailsAux cs .keep by
          simp [removeEmailsAux, hw]]
        exact congrArg (c :: ·) ih.2

theorem pyWs_toNat {x : Char} (h : pyWs x = true) :
    x.toNat = 32 ∨ x.toNat = 9 ∨ x.toNat = 10 ∨ x.toNat = 13 ∨
      x.toNat = 11 ∨ x.toNat = 12 := by
  simp only [pyWs, Bool.or_eq_true, decide_eq_true_eq] at h
  rcases h with ((((rfl | rfl) | rfl) | rfl) | rfl) | rfl <;> decide

theorem isDq_nonws : ∀ x : Char, isDq x = true → pyWs x = false := by
  intro x hx
  simp only [isDq, Bool.or_eq_true, decide_eq_true_eq] at hx
  rcases hx with (rfl | rfl) | rfl <;> decide

theorem isSq_nonws : ∀ x : Char, isSq x = true → pyWs x = false := by
  intro x hx
  simp only [isSq, Bool.or_eq_true, decide_eq_true_eq] at hx
  rcases hx with (h39 | rfl) | rfl
  · rcases Bool.eq_false_or_eq_true (pyWs x) with h | h
    · exfalso
      rcases pyWs_toNat h with h1 | h1 | h1 | h1 | h1 | h1 <;> rw [h39] at h1 <;> omega
    · exact h
  · decide
  · decide

theorem prefix_collapseRuns_nonclass {p : Char → Bool} {r : Char} (hr : p r = true) :
    ∀ (s v : List Char), (∀ c ∈ v, p c = false) →
      v <+: collapseRunsAux p r s false → v <+: s
  | [], v, _, hv => by simpa [collapseRunsAux] using hv
  | c :: cs, v, hcl, hv => by
    rcases Bool.eq_false_or_eq_true (p c) with h | h
    · rw [collapseRunsAux_pos_false h] at hv
      rcases v with _ | ⟨a, v₂⟩
      · exact List.nil_prefix
      · obtain ⟨heq, -⟩ := List.cons_prefix_cons.1 hv
        rw [← heq] at hr
        exact absurd hr (by simp [hcl a (List.mem_cons_self _ _)])
    · rw [collapseRunsAux_neg h] at hv
      rcases v with _ | ⟨a, v₂⟩
      · exact List.nil_prefix
      · obtain ⟨rfl, hv₂⟩ := List.cons_prefix_cons.1 hv
        exact List.cons_prefix_cons.2 ⟨rfl,
          prefix_collapseRuns_nonclass hr cs v₂
            (fun x hx => hcl x (List.mem_cons_of_mem _ hx)) hv₂⟩

theorem prefix_collapseRuns_word {p : Char → Bool} {r : Char} (hr : p r = true)
    (hres : ∀ x, p x = true → pyWs x = false ∨ pyWs r = true) :
    ∀ (s w : List Char) (d : Char), (∀ c ∈ w, p c = false) → pyWs d = false →
      (w ++ [d]) <+: collapseRunsAux p r s false →
      ∃ d', pyWs d' = false ∧ (w ++ [d']) <+: s
  | [], w, d, _, _, hv => by
    exfalso
    have h0 : w ++ [d] = [] := by simpa [collapseRunsAux] using hv
    simp at h0
  | c :: cs, w, d, hcl, hd, hv => by
    rcases Bool.eq_false_or_eq_true (p c) with h | h
    · rw [collapseRunsAux_pos_false h] at hv
      rcases w with _ | ⟨a, w₂⟩
      · obtain ⟨heq, -⟩ := List.cons_prefix_cons.1 hv
        rcases hres c h with hc | hrws
        · exact ⟨c, hc, ⟨cs, rfl⟩⟩
        · rw [heq] at hd
          rw [hd] at hrws
          cases hrws
      · obtain ⟨heq, -⟩ := List.cons_prefix_cons.1 hv
        rw [← heq] at hr
        exact absurd hr (by simp [hcl a (List.mem_cons_self _ _)])
    · rw [collapseRunsAux_neg h] at hv
      rcases w with _ | ⟨a, w₂⟩
      · obtain ⟨heq, -⟩ := List.cons_prefix_cons.1 hv
        exact ⟨c, heq ▸ hd, ⟨cs, rfl⟩⟩
      · obtain ⟨rfl, hv₂⟩ := List.cons_prefix_cons.1 hv
        obtain ⟨d', hd', hp⟩ := prefix_collapseRuns_word hr hres cs w₂ d
          (fun x hx => hcl x (List.mem_cons_of_mem _ hx)) hd hv₂
        exact ⟨d', hd', List.cons_prefix_cons.2 ⟨rfl, hp⟩⟩

theorem prefix_collapseRuns_token {p : Char → Bool} {r : Char}
    (hpn : ∀ x, p x = true → pyWs x = false) :
    ∀ (n : ℕ) (s : List Char), s.length ≤ n → ∀ y : List Char,
      y <+: collapseRunsAux p r s false → (∀ c ∈ y, pyWs c = false) →
      ∃ y', y' <+: s ∧ y.length ≤ y'.length ∧ (∀ c ∈ y', pyWs c = false)
  | _, [], _, y, hy, _ => by
    have hy0 : y = [] := by simpa [collapseRunsAux] using hy
    exact ⟨[], List.nil_prefix, by simp [hy0], by simp⟩
  | 0, c :: cs, hlen, _, _, _ => absurd hlen (by simp)
  | n + 1, c :: cs, hlen, y, hy, hnws => by
    have hlen' : cs.length ≤ n := by simp at hlen; omega
    rcases Bool.eq_false_or_eq_true (p c) with h | h
    · rw [collapseRunsAux_pos_false h, collapseRunsAux_skip] at hy
      rcases y with _ | ⟨a, y₂⟩
      · exact ⟨[], List.nil_prefix, by simp, by simp⟩
      · obtain ⟨heq, hy₂⟩ := List.cons_prefix_cons.1 hy
        have hlen'' : (cs.dropWhile p).length ≤ n :=
          le_trans (List.dropWhile_suffix _).length_le hlen'
        obtain ⟨y₂', hp, hl, hn⟩ := prefix_collapseRuns_token hpn n _ hlen'' y₂ hy₂
          (fun x hx => hnws x (List.mem_cons_of_mem _ hx))
        obtain ⟨tail, htail⟩ := hp
        refine ⟨c :: (cs.takeWhile p ++ y₂'), ?_, ?_, ?_⟩
        · refine List.cons_prefix_cons.2 ⟨rfl, ⟨tail, ?_⟩⟩
          calc (cs.takeWhile p ++ y₂') ++ tail
              = cs.takeWhile p ++ (y₂' ++ tail) := by simp
            _ = cs.takeWhile p ++ cs.dropWhile p := by rw [htail]
            _ = cs := List.takeWhile_append_dropWhile _ _
        · simp only [List.length_cons, List.length_append]
          omega
        · intro x hx
          rcases List.mem_cons.1 hx with hx0 | hx
          · rw [hx0]
            exact hpn c h
          · rcases List.mem_append.1 hx with hx | hx
            · exact hpn x (List.mem_takeWhile_imp hx)
            · exact hn x hx
    · rw [collapseRunsAux_neg h] at hy
      rcases y with _ | ⟨a, y₂⟩
      · exact ⟨[], List.nil_prefix, by simp, by simp⟩
      · obtain ⟨rfl, hy₂⟩ := List.cons_prefix_cons.1 hy
        obtain ⟨y₂', hp, hl, hn⟩ := prefix_collapseRuns_token hpn n cs hlen' y₂ hy₂
          (fun x hx => hnws x (List.mem_cons_of_mem _ hx))
        refine ⟨a :: y₂', List.cons_prefix_cons.2 ⟨rfl, hp⟩, by simpa using hl, ?_⟩
        intro x hx
        rcases List.mem_cons.1 hx with hx0 | hx
        · rw [hx0]
          exact hnws a (List.mem_cons_self _ _)
        · exact hn x hx

theorem prefix_collapseRuns_email {p : Char → Bool} {r : Char}
    (hpn : ∀ x, p x = true → pyWs x = false) (hra : r ≠ '@') :
    ∀ (n : ℕ) (s : List Char), s.length ≤ n → ∀ x y : List Char,
      (x ++ '@' :: y) <+: collapseRunsAux p r s false →
      (∀ c ∈ x ++ '@' :: y, pyWs c = false) →
      ∃ x' y', (x' ++ '@' :: y') <+: s ∧ x.length ≤ x'.length ∧
        y.length ≤ y'.length ∧ (∀ c ∈ x' ++ '@' :: y', pyWs c = false)
  | _, [], _, x, y, hv, _ => by
    exfalso
    have h0 : x ++ '@' :: y = [] := by simpa [collapseRunsAux] using hv
    simp at h0
  | 0, c :: cs, hlen, _, _, _, _ => absurd hlen (by simp)
  | n + 1, c :: cs, hlen, x, y, hv, hnws => by
    have hlen' : cs.length ≤ n := by simp at hlen; omega
    rcases Bool.eq_false_or_eq_true (p c) with h | h
    · rw [collapseRunsAux_pos_false h, collapseRunsAux_skip] at hv
      rcases x with _ | ⟨a, x₂⟩
      · obtain ⟨heq, -⟩ := List.cons_prefix_cons.1 hv
        exact absurd heq.symm hra
      · obtain ⟨heq, hv₂⟩ := List.cons_prefix_cons.1 hv
        have hlen'' : (cs.dropWhile p).length ≤ n :=
          le_trans (List.dropWhile_suffix _).length_le hlen'
        obtain ⟨x₂', y', hp, hlx, hly, hn⟩ := prefix_collapseRuns_email hpn hra n _
          hlen'' x₂ y hv₂ (fun u hu => hnws u (List.mem_cons_of_mem _ hu))
        obtain ⟨tail, htail⟩ := hp
        refine ⟨c :: (cs.takeWhile p ++ x₂'), y', ?_, ?_, hly, ?_⟩
        · refine List.cons_prefix_cons.2 ⟨rfl, ⟨tail, ?_⟩⟩
          calc ((cs.takeWhile p ++ x₂') ++ '@' :: y') ++ tail
              = cs.takeWhile p ++ ((x₂' ++ '@' :: y') ++ tail) := by simp
            _ = cs.takeWhile p ++ cs.dropWhile p := by rw [htail]
            _ = cs := List.takeWhile_append_dropWhile _ _
        · simp only [List.length_cons, List.length_append]
          omega
        · intro u hu
          have hu' : u ∈ c :: (cs.takeWhile p ++ (x₂' ++ '@' :: y')) := by
            simpa using hu
          rcases List.mem_cons.1 hu' with hu0 | hu''
          · rw [hu0]
            exact hpn c h
          · rcases List.mem_append.1 hu'' with h1 | h1
            · exact hpn u (List.mem_takeWhile_imp h1)
            · exact hn u h1
    · rw [collapseRunsAux_neg h] at hv
      rcases x with _ | ⟨a, x₂⟩
      · obtain ⟨heq, hy⟩ := List.cons_prefix_cons.1 hv
        obtain ⟨y', hp, hl, hn⟩ := prefix_collapseRuns_token hpn n cs hlen' y hy
          (fun u hu => hnws u (List.mem_cons_of_mem _ hu))
        refine ⟨[], y', ?_, le_rfl, hl, ?_⟩
        · rw [← heq]
          exact List.cons_prefix_cons.2 ⟨rfl, hp⟩
        · intro u hu
          rcases List.mem_cons.1 (by simpa using hu) with rfl | hu2
          · exact hnws '@' (by simp)
          · exact hn u hu2
      · obtain ⟨rfl, hv₂⟩ := List.cons_prefix_cons.1 hv
        obtain ⟨x₂', y', hp, hlx, hly, hn⟩ := prefix_collapseRuns_email hpn hra n cs
          hlen' x₂ y hv₂ (fun u hu => hnws u (List.mem_cons_of_mem _ hu))
        refine ⟨a :: x₂', y', List.cons_prefix_cons.2 ⟨rfl, hp⟩, ?_, hly, ?_⟩
        · simp only [List.length_cons]
          omega
        · intro u hu
          have hu' : u = a ∨ u ∈ x₂' ∨ u = '@' ∨ u ∈ y' := by simpa using hu
          rcases hu' with hu0 | hu0 | hu0 | hu0
          · rw [hu0]
            exact hnws a (by simp)
          · exact hn u (by simp [hu0])
          · rw [hu0]
            exact hnws '@' (by simp)
          · exact hn u (by simp [hu0])

theorem suffix_append_right {u v w : List Char} (h : u <:+ v) : u ++ w <:+ v ++ w := by
  obtain ⟨q, hq⟩ := h
  exact ⟨q, by rw [← List.append_assoc, hq]⟩

theorem pyStrip_suffix_ext {l u : List Char} (h : u <:+ pyStrip l) :
    ∃ w, (∀ c ∈ w, pyWs c = true) ∧ u ++ w <:+ l := by
  refine ⟨((l.dropWhile pyWs).reverse.takeWhile pyWs).reverse, ?_, ?_⟩
  · intro c hc
    rw [List.mem_reverse] at hc
    exact List.mem_takeWhile_imp hc
  · have hdecomp : pyStrip l ++ ((l.dropWhile pyWs).reverse.takeWhile pyWs).reverse
        = l.dropWhile pyWs := by
      unfold pyStrip
      rw [← List.reverse_append, List.takeWhile_append_dropWhile, List.reverse_reverse]
    have h2 : u ++ ((l.dropWhile pyWs).reverse.takeWhile pyWs).reverse
        <:+ pyStrip l ++ ((l.dropWhile pyWs).reverse.takeWhile pyWs).reverse :=
      suffix_append_right h
    rw [hdecomp] at h2
    exact h2.trans (List.dropWhile_suffix _)

theorem noUrl_pyStrip {l : List Char} (h : noUrl l) : noUrl (pyStrip l) := by
  intro t ht
  obtain ⟨w, -, htw⟩ := pyStrip_suffix_ext ht
  rcases Bool.eq_false_or_eq_true (urlAt t) with h1 | h1
  swap
  · exact h1
  exact absurd (urlAt_mono (List.prefix_append t w) h1) (by simp [h (t ++ w) htw])

theorem noEmailSuf_pyStrip {l : List Char} (h : noEmailSuf l) :
    noEmailSuf (pyStrip l) := by
  intro t ht
  obtain ⟨w, hw, htw⟩ := pyStrip_suffix_ext ht
  have h2 := h (t ++ w) htw
  rw [takeWhile_append_ws t w hw] at h2
  exact h2

theorem noUrl_collapseRuns {p : Char → Bool} {r : Char} (hr : p r = true)
    (hres : ∀ x, p x = true → pyWs x = false ∨ pyWs r = true)
    (hsch : ∀ c ∈ "https://".toList, p c = false)
    {l : List Char} (h : noUrl l) : noUrl (collapseRunsAux p r l false) := by
  intro t ht
  obtain ⟨s', hs', rfl⟩ := suffix_collapseRuns l.length l le_rfl t ht
  rcases Bool.eq_false_or_eq_true (urlAt (collapseRunsAux p r s' false)) with h1 | h1
  swap
  · exact h1
  exfalso
  obtain ⟨sch, d, hs2, hd, -, hpre⟩ := urlAt_scheme_decomp h1
  have hschp : ∀ c ∈ sch, p c = false := by
    rcases hs2 with rfl | rfl
    · exact hsch
    · intro c hc
      exact hsch c (http_subset_https c hc)
  obtain ⟨d', hd', hv⟩ := prefix_collapseRuns_word hr hres s' sch d hschp hd hpre
  exact absurd (urlAt_of_scheme_head hs2 hd' hv) (by simp [h s' hs'])

theorem noEmailSuf_collapseRuns {p : Char → Bool} {r : Char}
    (hpn : ∀ x, p x = true → pyWs x = false) (hra : r ≠ '@')
    {l : List Char} (h : noEmailSuf l) : noEmailSuf (collapseRunsAux p r l false) := by
  intro t ht
  obtain ⟨s', hs', rfl⟩ := suffix_collapseRuns l.length l le_rfl t ht
  rcases Bool.eq_false_or_eq_true
    (emailToken ((collapseRunsAux p r s' false).takeWhile fun u => !pyWs u)) with h1 | h1
  swap
  · exact h1
  exfalso
  obtain ⟨x, y, heq, hx, hy⟩ := emailToken_iff.1 h1
  have hpre : (x ++ '@' :: y) <+: collapseRunsAux p r s' false := by
    rw [← heq]
    exact List.takeWhile_prefix _
  have hnws : ∀ c ∈ x ++ '@' :: y, pyWs c = false := by
    intro c hc
    rw [← heq] at hc
    simpa using List.mem_takeWhile_imp hc
  obtain ⟨x', y', hp, hlx, hly, hn⟩ := prefix_collapseRuns_email hpn hra s'.length s'
    le_rfl x y hpre hnws
  obtain ⟨tail, htail⟩ := hp
  have hx' : x' ≠ [] := by
    intro h0
    rw [h0] at hlx
    simp at hlx
    exact hx hlx
  have hy' : y' ≠ [] := by
    intro h0
    rw [h0] at hly
    simp at hly
    exact hy hly
  have hall : ∀ c ∈ x' ++ '@' :: y', (fun u => !pyWs u) c = true := by
    intro c hc
    simp [hn c hc]
  have htok : emailToken (s'.takeWhile fun u => !pyWs u) = true := by
    rw [← htail, takeWhile_append_all _ tail hall]
    refine emailToken_iff.2 ⟨x', y' ++ (tail.takeWhile fun u => !pyWs u), ?_, hx', ?_⟩
    · simp
    · simp [hy']
  exact absurd htok (by simp [h s' hs'])

theorem noUrl_collapseWs {l : List Char} (h : noUrl l) : noUrl (collapseWs l) := by
  rw [show collapseWs l = collapseRunsAux pyWs ' ' l false from
    collapseWsAux_eq_runs l false]
  exact noUrl_collapseRuns (by decide) (fun x _ => Or.inr (by decide))
    scheme_nonws_https h

theorem noEmailSuf_collapseWs {l : List Char} (h : noEmailSuf l) :
    noEmailSuf (collapseWs l) := by
  intro t ht
  rw [show collapseWs l = collapseRunsAux pyWs ' ' l false from
    collapseWsAux_eq_runs l false] at ht
  obtain ⟨s', hs', rfl⟩ := suffix_collapseRuns l.length l le_rfl t ht
  rcases Bool.eq_false_or_eq_true
    (emailToken ((collapseRunsAux pyWs ' ' s' false).takeWhile fun u => !pyWs u))
    with h1 | h1
  swap
  · exact h1
  exfalso
  obtain ⟨x, y, heq, hx, hy⟩ := emailToken_iff.1 h1
  have hpre : (x ++ '@' :: y) <+: collapseRunsAux pyWs ' ' s' false := by
    rw [← heq]
    exact List.takeWhile_prefix _
  have hnws : ∀ c ∈ x ++ '@' :: y, pyWs c = false := by
    intro c hc
    rw [← heq] at hc
    simpa using List.mem_takeWhile_imp hc
  have hv : (x ++ '@' :: y) <+: s' :=
    prefix_collapseRuns_nonclass (by decide) s' _ hnws hpre
  obtain ⟨tail, htail⟩ := hv
  have hall : ∀ c ∈ x ++ '@' :: y, (fun u => !pyWs u) c = true := by
    intro c hc
    simp [hnws c hc]
  have htok : emailToken (s'.takeWhile fun u => !pyWs u) = true := by
    rw [← htail, takeWhile_append_all _ tail hall]
    refine emailToken_iff.2 ⟨x, y ++ (tail.takeWhile fun u => !pyWs u), ?_, hx, ?_⟩
    · simp
    · simp [hy]
  exact absurd htok (by simp [h s' hs'])

theorem clean_tail_idem (l : List Char) (h_url : noUrl l) (h_em : noEmailSuf l)
    (hsp : ∀ c ∈ l, pyWs c = true → c = ' ') (hch : List.Chain' wsSep l) :
    clean_text (pyStrip (collapseRuns isSq '\x27' (collapseRuns isDq '"' l)))
      = pyStrip (collapseRuns isSq '\x27' (collapseRuns isDq '"' l)) := by
  have hE_url : noUrl (collapseRuns isDq '"' l) :=
    noUrl_collapseRuns (by decide) (fun x hx => Or.inl (isDq_nonws x hx))
      (by decide) h_url
  have hE_em : noEmailSuf (collapseRuns isDq '"' l) :=
    noEmailSuf_collapseRuns isDq_nonws (by decide) h_em
  have hE_mem : ∀ c ∈ collapseRuns isDq '"' l, c ∈ l ∨ c = '"' :=
    fun c hc => collapseRuns_mem l false hc
  have hE_sp : ∀ c ∈ collapseRuns isDq '"' l, pyWs c = true → c = ' ' := by
    intro c hc hw
    rcases hE_mem c hc with h1 | h1
    · exact hsp c h1 hw
    · rw [h1] at hw
      exact absurd hw (by decide)
  have hE_wch : List.Chain' wsSep (collapseRuns isDq '"' l) :=
    collapseRuns_chain_pres (A := pyWs) (by decide) l false hch
  have hE_dq : ∀ c ∈ collapseRuns isDq '"' l, isDq c = true → c = '"' :=
    fun c hc => collapseRuns_classChar l false hc
  have hE_dch : List.Chain' (fun a b => isDq a = false ∨ isDq b = false)
      (collapseRuns isDq '"' l) := (collapseRuns_chain l).1
  have hF_url : noUrl (collapseRuns isSq '\x27' (collapseRuns isDq '"' l)) :=
    noUrl_collapseRuns (by decide) (fun x hx => Or.inl (isSq_nonws x hx))
      (by decide) hE_url
  have hF_em : noEmailSuf (collapseRuns isSq '\x27' (collapseRuns isDq '"' l)) :=
    noEmailSuf_collapseRuns isSq_nonws (by decide) hE_em
  have hF_mem : ∀ c ∈ collapseRuns isSq '\x27' (collapseRuns isDq '"' l),
      c ∈ collapseRuns isDq '"' l ∨ c = '\x27' :=
    fun c hc => collapseRuns_mem _ false hc
  have hF_sp : ∀ c ∈ collapseRuns isSq '\x27' (collapseRuns isDq '"' l),
      pyWs c = true → c = ' ' := by
    intro c hc hw
    rcases hF_mem c hc with h1 | h1
    · exact hE_sp c h1 hw
    · rw [h1] at hw
      exact absurd hw (by decide)
  have hF_wch : List.Chain' wsSep (collapseRuns isSq '\x27' (collapseRuns isDq '"' l)) :=
    collapseRuns_chain_pres (A := pyWs) (by decide) _ false hE_wch
  have hF_dq : ∀ c ∈ collapseRuns isSq '\x27' (collapseRuns isDq '"' l),
      isDq c = true → c = '"' := by
    intro c hc hd
    rcases hF_mem c hc with h1 | h1
    · exact hE_dq c h1 hd
    · rw [h1] at hd
      exact absurd hd (by decide)
  have hF_dch : List.Chain' (fun a b => isDq a = false ∨ isDq b = false)
      (collapseRuns isSq '\x27' (collapseRuns isDq '"' l)) :=
    collapseRuns_chain_pres (A := isDq) (by decide) _ false hE_dch
  have hF_sq : ∀ c ∈ collapseRuns isSq '\x27' (collapseRuns isDq '"' l),
      isSq c = true → c = '\x27' :=
    fun c hc => collapseRuns_classChar _ false hc
  have hF_sch : List.Chain' (fun a b => isSq a = false ∨ isSq b = false)
      (collapseRuns isSq '\x27' (collapseRuns isDq '"' l)) :=
    (collapseRuns_chain _).1
  have hG_sub : (pyStrip (collapseRuns isSq '\x27' (collapseRuns isDq '"' l))).Sublist
      (collapseRuns isSq '\x27' (collapseRuns isDq '"' l)) := pyStrip_sublist _
  have hG_url : noUrl (pyStrip (collapseRuns isSq '\x27' (collapseRuns isDq '"' l))) :=
    noUrl_pyStrip hF_url
  have hG_em : noEmailSuf (pyStrip (collapseRuns isSq '\x27' (collapseRuns isDq '"' l))) :=
    noEmailSuf_pyStrip hF_em
  have hG_sp : ∀ c ∈ pyStrip (collapseRuns isSq '\x27' (collapseRuns isDq '"' l)),
      pyWs c = true → c = ' ' := fun c hc => hF_sp c (hG_sub.subset hc)
  have hG_wch : List.Chain' wsSep
      (pyStrip (collapseRuns isSq '\x27' (collapseRuns isDq '"' l))) :=
    List.Chain'.infix hF_wch (pyStrip_within _)
  have hG_dq : ∀ c ∈ pyStrip (collapseRuns isSq '\x27' (collapseRuns isDq '"' l)),
      isDq c = true → c = '"' := fun c hc => hF_dq c (hG_sub.subset hc)
  have hG_dch : List.Chain' (fun a b => isDq a = false ∨ isDq b = false)
      (pyStrip (collapseRuns isSq '\x27' (collapseRuns isDq '"' l))) :=
    List.Chain'.infix hF_dch (pyStrip_within _)
  have hG_sq : ∀ c ∈ pyStrip (collapseRuns isSq '\x27' (collapseRuns isDq '"' l)),
      isSq c = true → c = '\x27' := fun c hc => hF_sq c (hG_sub.subset hc)
  have hG_sch : List.Chain' (fun a b => isSq a = false ∨ isSq b = false)
      (pyStrip (collapseRuns isSq '\x27' (collapseRuns isDq '"' l))) :=
    List.Chain'.infix hF_sch (pyStrip_within _)
  have hG_nl : '\n' ∉ pyStrip (collapseRuns isSq '\x27' (collapseRuns isDq '"' l)) := by
    intro hmem
    exact absurd (hG_sp '\n' hmem (by decide)) (by decide)
  have hu : removeURLs (pyStrip (collapseRuns isSq '\x27' (collapseRuns isDq '"' l)))
      = pyStrip (collapseRuns isSq '\x27' (collapseRuns isDq '"' l)) :=
    removeURLsAux_id_noUrl _ hG_url
  have he : removeEmails (pyStrip (collapseRuns isSq '\x27' (collapseRuns isDq '"' l)))
      = pyStrip (collapseRuns isSq '\x27' (collapseRuns isDq '"' l)) :=
    (removeEmailsAux_id_noEmail _ hG_em).1
  have hwid : collapseWs (pyStrip (collapseRuns isSq '\x27' (collapseRuns isDq '"' l)))
      = pyStrip (collapseRuns isSq '\x27' (collapseRuns isDq '"' l)) :=
    (collapse_id _ hG_sp hG_wch).1
  have hnl : collapseNl (pyStrip (collapseRuns isSq '\x27' (collapseRuns isDq '"' l)))
      = pyStrip (collapseRuns isSq '\x27' (collapseRuns isDq '"' l)) :=
    collapseNl_id _ hG_nl
  have hdq : collapseRuns isDq '"'
        (pyStrip (collapseRuns isSq '\x27' (collapseRuns isDq '"' l)))
      = pyStrip (collapseRuns isSq '\x27' (collapseRuns isDq '"' l)) :=
    (collapseRuns_id _ hG_dq hG_dch).1
  have hsq : collapseRuns isSq '\x27'
        (pyStrip (collapseRuns isSq '\x27' (collapseRuns isDq '"' l)))
      = pyStrip (collapseRuns isSq '\x27' (collapseRuns isDq '"' l)) :=
    (collapseRuns_id _ hG_sq hG_sch).1
  have hst : pyStrip (pyStrip (collapseRuns isSq '\x27' (collapseRuns isDq '"' l)))
      = pyStrip (collapseRuns isSq '\x27' (collapseRuns isDq '"' l)) :=
    pyStrip_id _ (pyStrip_head _) (pyStrip_getLast _)
  unfold clean_text
  rw [hu, he, hwid, hnl, hdq, hsq, hst]

/-- C9 counterexample: `preprocess_text` collapses whitespace *before*
    removing URLs, so removing `http://x` from `a http://x b` leaves the
    double space `a  b`; a second normalization pass collapses it to `a b`,
    so normalization is not idempotent. -/
theorem claim9_counterexample :
    preprocess_text (preprocess_text "a http://x b".toList) ≠
      preprocess_text "a http://x b".toList := by
  decide

/-- C9 amended: `document_summary.clean_text` is idempotent on every input
    (it removes URLs and e-mail tokens before collapsing whitespace, so a
    second pass finds nothing left to change), while
    `text_summary.preprocess_text` is idempotent only on inputs containing
    neither `:` nor `@` (hence no URLs and no e-mail tokens): in general it
    fails, because it collapses whitespace before the removals and can leave
    doubled spaces. -/
theorem claim9_amended (s : List Char) :
    clean_text (clean_text s) = clean_text s ∧
      (':' ∉ s → '@' ∉ s →
        preprocess_text (preprocess_text s) = preprocess_text s) := by
  constructor
  · have hC_url : noUrl (collapseWs (removeEmails (removeURLs s))) :=
      noUrl_collapseWs (noUrl_removeEmails (noUrl_removeURLs s))
    have hC_em : noEmailSuf (collapseWs (removeEmails (removeURLs s))) :=
      noEmailSuf_collapseWs (noEmailSuf_removeEmails (removeURLs s))
    have hC_sp : ∀ c ∈ collapseWs (removeEmails (removeURLs s)),
        pyWs c = true → c = ' ' :=
      fun c hc => collapseWsAux_ws_space _ false c hc
    have hC_ch : List.Chain' wsSep (collapseWs (removeEmails (removeURLs s))) :=
      (collapseWsAux_chain _).1
    have hC_nl : '\n' ∉ collapseWs (removeEmails (removeURLs s)) := by
      intro hmem
      exact absurd (hC_sp '\n' hmem (by decide)) (by decide)
    have hfirst : clean_text s
        = pyStrip (collapseRuns isSq '\x27' (collapseRuns isDq '"'
            (collapseWs (removeEmails (removeURLs s))))) := by
      unfold clean_text
      rw [collapseNl_id _ hC_nl]
    rw [hfirst]
    exact clean_tail_idem _ hC_url hC_em hC_sp hC_ch
  intro hc ha
  have hc1 : ':' ∉ collapseWs s := by
    intro hmem
    rcases mem_collapseWsAux s false hmem with h | h
    · exact hc h
    · exact absurd h (by decide)
  have ha1 : '@' ∉ collapseWs s := by
    intro hmem
    rcases mem_collapseWsAux s false hmem with h | h
    · exact ha h
    · exact absurd h (by decide)
  have hu : removeURLs (collapseWs s) = collapseWs s := removeURLsAux_id _ hc1
  have he : removeEmails (collapseWs s) = collapseWs s := (removeEmailsAux_id _ ha1).1
  have hpp : preprocess_text s = pyStrip (collapseWs s) := by
    unfold preprocess_text
    rw [hu, he]
  have hsub : (pyStrip (collapseWs s)).Sublist (collapseWs s) := pyStrip_sublist _
  have hsp_t : ∀ c ∈ pyStrip (collapseWs s), pyWs c = true → c = ' ' :=
    fun c hcm hw => collapseWsAux_ws_space s false c (hsub.subset hcm) hw
  have hch_t : List.Chain' wsSep (pyStrip (collapseWs s)) :=
    List.Chain'.infix (collapseWsAux_chain s).1 (pyStrip_within _)
  have hc_t : ':' ∉ pyStrip (collapseWs s) := fun h => hc1 (hsub.subset h)
  have ha_t : '@' ∉ pyStrip (collapseWs s) := fun h => ha1 (hsub.subset h)
  have hcol_t : collapseWs (pyStrip (collapseWs s)) = pyStrip (collapseWs s) :=
    (collapse_id _ hsp_t hch_t).1
  have hu2 : removeURLs (pyStrip (collapseWs s)) = pyStrip (collapseWs s) :=
    removeURLsAux_id _ hc_t
  have he2 : removeEmails (pyStrip (collapseWs s)) = pyStrip (collapseWs s) :=
    (removeEmailsAux_id _ ha_t).1
  rw [hpp]
  unfold preprocess_text
  show pyStrip (removeEmails (removeURLs (collapseWs (pyStrip (collapseWs s))))) = _
  rw [hcol_t, hu2, he2, pyStrip_id _ (pyStrip_head _) (pyStrip_getLast _)]

theorem claim9_amended_witness :
    clean_text (clean_text "a http://x b".toList) = clean_text "a http://x b".toList ∧
      (':' ∉ "ab cd".toList ∧ '@' ∉ "ab cd".toList ∧
        preprocess_text (preprocess_text "ab cd".toList) =
          preprocess_text "ab cd".toList) :=
  ⟨(claim9_amended "a http://x b".toList).1,
    by decide, by decide,
    (claim9_amended "ab cd".toList).2 (by decide) (by decide)⟩

end Summarizer
